import Mathlib

/-!
Verification development for the `gimme` transcript assembler (src/gimme.py).

The Python program is shallowly embedded: its mutable dictionaries become
association lists, its `networkx` graphs become explicit node/edge lists
(deduplicated on insertion, preserving insertion order, which determinises
the unspecified Python dict/set iteration order), Python integers become
`Int`, and code that can raise (`KeyError`, `IndexError`, unbound locals)
or recurse unboundedly returns `Except GErr` with an explicit crash/fuel
distinction.  Module-level configuration constants (`GAP_SIZE`,
`MAX_INTRON`, `MIN_UTR`, `MIN_EXON`, `MIN_TRANSCRIPT_LEN`) are passed as
explicit parameters; their defaults are defined below.
-/

deriving instance DecidableEq for Except

/-- Runtime failure of the embedded Python code: `crash` models an uncaught
exception (`KeyError`, `IndexError`, `TypeError`, unbound local), `fuelOut`
models non-termination (recursion that exceeds any finite fuel). -/
inductive GErr : Type
  | crash : GErr
  | fuelOut : GErr
deriving DecidableEq, Repr

/-- Turn an `Option` lookup into the embedded run, crashing on `none`
(the Python `dict[key]` `KeyError`). -/
def orCrash {β : Type} : Option β → Except GErr β
  | none => .error .crash
  | some b => .ok b

/-- Association-list lookup: first entry with the given key
(models Python `dict` access; keys are kept duplicate-free). -/
def lookupA {κ ν : Type} [DecidableEq κ] : List (κ × ν) → κ → Option ν
  | [], _ => none
  | (k', v) :: t, k => if k' = k then some v else lookupA t k

/-- Association-list store, `d[k] = v`: replace in place if the key is
present, else append (Python dict insertion order). -/
def insertA {κ ν : Type} [DecidableEq κ] : List (κ × ν) → κ → ν → List (κ × ν)
  | [], k, v => [(k, v)]
  | (k', v') :: t, k, v => if k' = k then (k, v) :: t else (k', v') :: insertA t k v

/-- Association-list removal, `d.pop(k)`. -/
def eraseA {κ ν : Type} [DecidableEq κ] : List (κ × ν) → κ → List (κ × ν)
  | [], _ => []
  | (k', v') :: t, k => if k' = k then t else (k', v') :: eraseA t k

/-- Mutate the value stored at a key in place (models attribute assignment on
the aliased object held by the dict); no-op when the key is absent. -/
def mapEntry {κ ν : Type} [DecidableEq κ] (l : List (κ × ν)) (k : κ) (f : ν → ν) :
    List (κ × ν) :=
  l.map (fun p => if p.1 = k then (p.1, f p.2) else p)

/-- Set insertion: Python `set.add` / deduplicated dict-key insertion.
New elements go to the back, preserving insertion order. -/
def insertU {α : Type} [DecidableEq α] (x : α) (l : List α) : List α :=
  if x ∈ l then l else l ++ [x]

/-- Deduplicate keeping first occurrences (insertion order). -/
def dedupU {α : Type} [DecidableEq α] (l : List α) : List α :=
  l.foldl (fun acc x => insertU x acc) []

/-- A `networkx.DiGraph` as used by the source: a node list and a directed
edge list, both duplicate-free, in insertion order. -/
structure NxDiGraph (α : Type) where
  nodes : List α := []
  edges : List (α × α) := []
deriving DecidableEq, Repr

namespace NxDiGraph

variable {α : Type} [DecidableEq α]

/-- The empty digraph, `nx.DiGraph()`. -/
def empty : NxDiGraph α := ⟨[], []⟩

/-- `g.add_node(x)`. -/
def addNode (g : NxDiGraph α) (x : α) : NxDiGraph α :=
  { g with nodes := insertU x g.nodes }

/-- `g.add_edge(a, b)`: inserts both endpoints as nodes and the edge. -/
def addEdge (g : NxDiGraph α) (a b : α) : NxDiGraph α :=
  { nodes := insertU b (insertU a g.nodes), edges := insertU (a, b) g.edges }

/-- `g.add_edges_from(es)`. -/
def addEdgesFrom (g : NxDiGraph α) (es : List (α × α)) : NxDiGraph α :=
  es.foldl (fun g e => g.addEdge e.1 e.2) g

/-- `g.add_path(xs)`: consecutive edges; a single element is added as an
isolated node; the empty list does nothing. -/
def addPath (g : NxDiGraph α) : List α → NxDiGraph α
  | [] => g
  | [x] => g.addNode x
  | x :: y :: rest => (g.addEdge x y).addPath (y :: rest)

/-- `g.remove_node(x)`: drops the node and every incident edge. -/
def removeNode (g : NxDiGraph α) (x : α) : NxDiGraph α :=
  ⟨g.nodes.filter (fun n => decide (n ≠ x)),
   g.edges.filter (fun e => decide (e.1 ≠ x ∧ e.2 ≠ x))⟩

/-- `g.successors(x)`: targets of the edges leaving `x`, in insertion order. -/
def successors (g : NxDiGraph α) (x : α) : List α :=
  (g.edges.filter (fun e => decide (e.1 = x))).map Prod.snd

/-- `g.predecessors(x)`: sources of the edges entering `x`. -/
def predecessors (g : NxDiGraph α) (x : α) : List α :=
  (g.edges.filter (fun e => decide (e.2 = x))).map Prod.fst

/-- Well-formedness: every edge endpoint is a node.  All reachable graphs of
the embedding satisfy it. -/
def WF (g : NxDiGraph α) : Prop := ∀ e ∈ g.edges, e.1 ∈ g.nodes ∧ e.2 ∈ g.nodes

end NxDiGraph

/-- A `networkx.Graph` (undirected, used for the big cluster): edges are
stored once, in whichever orientation they were first added; self loops
are allowed. -/
structure NxGraph (α : Type) where
  nodes : List α := []
  edges : List (α × α) := []
deriving DecidableEq, Repr

namespace NxGraph

variable {α : Type} [DecidableEq α]

/-- The empty graph, `nx.Graph()`. -/
def empty : NxGraph α := ⟨[], []⟩

/-- Whether the undirected edge `{a, b}` is present. -/
def hasEdge (g : NxGraph α) (a b : α) : Bool :=
  decide ((a, b) ∈ g.edges ∨ (b, a) ∈ g.edges)

/-- `g.add_node(x)`. -/
def addNode (g : NxGraph α) (x : α) : NxGraph α :=
  { g with nodes := insertU x g.nodes }

/-- `g.add_edge(a, b)` on an undirected graph. -/
def addEdge (g : NxGraph α) (a b : α) : NxGraph α :=
  { nodes := insertU b (insertU a g.nodes),
    edges := if g.hasEdge a b then g.edges else g.edges ++ [(a, b)] }

/-- `g.add_path(xs)`. -/
def addPath (g : NxGraph α) : List α → NxGraph α
  | [] => g
  | [x] => g.addNode x
  | x :: y :: rest => (g.addEdge x y).addPath (y :: rest)

/-- `g.neighbors(x)`: opposite endpoints of the edges at `x` (a self loop
contributes `x` itself), deduplicated. -/
def neighbors (g : NxGraph α) (x : α) : List α :=
  dedupU ((g.edges.filter (fun e => decide (e.1 = x))).map Prod.snd ++
          (g.edges.filter (fun e => decide (e.2 = x))).map Prod.fst)

end NxGraph

/-- The `ExonObj` class: genomic interval plus the mutable attributes used by
the pipeline.  The Python attribute `end` is called `stop` here (`end` is a
Lean keyword); `terminal` is `None`/`1`/`2` in the source, embedded as
`Option Nat`. -/
structure ExonObj where
  chrom : String
  start : Int
  stop : Int
  terminal : Option Nat := none
  nextExons : List String := []
  introns : List String := []
  single : Bool := false
deriving DecidableEq, Repr

/-- `str(exon)`, i.e. `'%s:%d-%d' % (chrom, start, end)` — the registry key. -/
def exonStr (e : ExonObj) : String :=
  e.chrom ++ ":" ++ toString e.start ++ "-" ++ toString e.stop

/-- Fresh exon as built by `parsePSL` from a `(tStart, blockSize)` block. -/
def mkExonObj (chrom : String) (start stop : Int) : ExonObj :=
  { chrom := chrom, start := start, stop := stop }

/-- Python truthiness of the `terminal` attribute (`None` and `0` are falsy). -/
def optTruthy : Option Nat → Bool
  | none => false
  | some n => decide (n ≠ 0)

/-- An intron entry of `intronDb`: in the source it is an `nx.DiGraph` whose
graph attributes carry `name` and `cluster` and whose edges link exon keys. -/
structure IntronObj where
  name : String
  cluster : Option Nat := none
  graph : NxDiGraph String := NxDiGraph.empty
deriving DecidableEq, Repr

/-- The exon registry `exonDb`. -/
abbrev ExonDb := List (String × ExonObj)

/-- The intron table `intronDb`. -/
abbrev IntronDb := List (String × IntronObj)

/-- The cluster table `clusters`, keyed by the integer cluster id. -/
abbrev ClusterTable := List (Nat × NxDiGraph String)

/-- The three process-global registries of the source. -/
structure GimmeState where
  exonDb : ExonDb := []
  intronDb : IntronDb := []
  clusters : ClusterTable := []
deriving DecidableEq, Repr

/-- Default `GAP_SIZE` (bp). -/
def GAP_SIZE : Int := 10

/-- Default `MAX_INTRON` (bp). -/
def MAX_INTRON : Int := 100000

/-- Default `MIN_UTR` (bp). -/
def MIN_UTR : Int := 100

/-- Default `MIN_EXON` (bp). -/
def MIN_EXON : Int := 10

/-- Default `MIN_TRANSCRIPT_LEN` (bp). -/
def MIN_TRANSCRIPT_LEN : Int := 300

/-- Stable sort as used by Python `sorted` (insertion sort is stable and the
relations below hold on ties, so equal-key elements keep their order). -/
def pySorted {α : Type} (r : α → α → Prop) [DecidableRel r] (l : List α) : List α :=
  List.insertionSort r l

/-- Sort key `lambda x: (x.end, x.start)` of `collapseExons` pass 1. -/
def byEndStart (a b : ExonObj) : Prop :=
  a.stop < b.stop ∨ (a.stop = b.stop ∧ a.start ≤ b.start)

instance : DecidableRel byEndStart := fun a b => by
  unfold byEndStart; infer_instance

/-- Sort key `lambda x: (x.start, x.end)` of pass 2 and `checkCriteria`. -/
def byStartEnd (a b : ExonObj) : Prop :=
  a.start < b.start ∨ (a.start = b.start ∧ a.stop ≤ b.stop)

instance : DecidableRel byStartEnd := fun a b => by
  unfold byStartEnd; infer_instance

/-- Sort key `lambda x: x.start` of `merge_exons`. -/
def byStart (a b : ExonObj) : Prop := a.start ≤ b.start

instance : DecidableRel byStart := fun a b => by
  unfold byStart; infer_instance

/-- `deleteGap(exons)`: merges consecutive blocks whose gap
`next.start - curr.end` is at most `gapSize` by overwriting `curr.end` with
`next.end`; flushes `curr` otherwise.  Inner loop of the source, carrying the
running exon. -/
def deleteGapAux (gapSize : Int) (curr : ExonObj) : List ExonObj → List ExonObj
  | [] => [curr]
  | next :: rest =>
    if next.start - curr.stop ≤ gapSize then
      deleteGapAux gapSize { curr with stop := next.stop } rest
    else
      curr :: deleteGapAux gapSize next rest

/-- `deleteGap` entry point.  The source indexes `exons[0]` and so crashes on
an empty list; the embedding returns `[]` there (no claim concerns that
case). -/
def deleteGap (gapSize : Int) : List ExonObj → List ExonObj
  | [] => []
  | e :: rest => deleteGapAux gapSize e rest

/-- The `min_exon` filter of `parsePSL`: drops exons shorter than `minExon`
(where length is `(end - start) + 1` as in the source) and splits the
alignment into the maximal runs of kept exons, yielding each nonempty run. -/
def splitRuns (minExon : Int) : List ExonObj → List (List ExonObj) → List ExonObj → List (List ExonObj)
  | kept, acc, [] => if kept = [] then acc else acc ++ [kept]
  | kept, acc, e :: rest =>
    if (e.stop - e.start) + 1 ≥ minExon then
      splitRuns minExon (kept ++ [e]) acc rest
    else
      if kept = [] then splitRuns minExon [] acc rest
      else splitRuns minExon [] (acc ++ [kept]) rest

/-- One `parsePSL` alignment: build exons from `(tStart, blockSize)` blocks,
fill small gaps, and split on short exons. -/
def parseAlignment (minExon gapSize : Int) (chrom : String) (blocks : List (Int × Int)) :
    List (List ExonObj) :=
  let exons := blocks.map (fun b => mkExonObj chrom b.1 (b.1 + b.2))
  splitRuns minExon [] [] (deleteGap gapSize exons)

/-- Set the terminal flag of the last exon to `2` (rightmost). -/
def setLastTerminal : List ExonObj → List ExonObj
  | [] => []
  | [e] => [{ e with terminal := some 2 }]
  | e :: rest => e :: setLastTerminal rest

/-- `addExon` step 1: set the terminal flags of the leftmost (`1`) and
rightmost (`2`) exons, in that order (a single exon ends up with `2`; the
source indexes `exons[0]`, so it crashes on `[]`, a case no caller reaches —
the embedding returns `[]` there). -/
def setTerminals : List ExonObj → List ExonObj
  | [] => []
  | e :: rest => setLastTerminal ({ e with terminal := some 1 } :: rest)

/-- `addExon` step 2, run for one exon of the alignment: insert it if its key
is absent; otherwise clear the stored terminal flag when this occurrence is
internal (falsy `terminal`) but the stored one is terminal (truthy). -/
def addExonStep (db : ExonDb) (exon : ExonObj) : ExonDb :=
  match lookupA db (exonStr exon) with
  | none => insertA db (exonStr exon) exon
  | some exon_ =>
    if !(optTruthy exon.terminal) && optTruthy exon_.terminal then
      mapEntry db (exonStr exon) (fun e => { e with terminal := none })
    else db

/-- `addExon(db, exons)`. -/
def addExon (db : ExonDb) (exons : List ExonObj) : ExonDb :=
  (setTerminals exons).foldl addExonStep db

/-- `'%s:%d-%d'` intron key from the upstream exon's chromosome and the
intron coordinates. -/
def intronStr (chrom : String) (intronStart intronEnd : Int) : String :=
  chrom ++ ":" ++ toString intronStart ++ "-" ++ toString intronEnd

/-- The per-pair loop of `addIntrons`.  For each consecutive exon pair the
exons are re-read from `exonDb` (a missing key is the Python `KeyError`),
the pair is skipped when the implied intron is longer than `maxIntron`,
the upstream exon's `nextExons` is extended, and the shared intron entry is
created (with `cluster = None`) or the existing entry gains this pair's edge
while its current cluster is collected into `existing`.  Returns the updated
`exonDb`, `intronDb`, the intron keys of this alignment in order, and the
set of touched clusters. -/
def addIntronsLoop (maxIntron : Int) (edb : ExonDb) (idb : IntronDb)
    (names : List String) (existing : List (Option Nat)) :
    List ExonObj → Except GErr (ExonDb × IntronDb × List String × List (Option Nat))
  | [] => .ok (edb, idb, names, existing)
  | [_] => .ok (edb, idb, names, existing)
  | e₁ :: e₂ :: rest =>
    match lookupA edb (exonStr e₁), lookupA edb (exonStr e₂) with
    | some curr, some next =>
      let intronStart := curr.stop + 1
      let intronEnd := next.start - 1
      if intronEnd - intronStart > maxIntron then
        addIntronsLoop maxIntron edb idb names existing (e₂ :: rest)
      else
        let currK := exonStr curr
        let nextK := exonStr next
        let edb := mapEntry edb (exonStr e₁)
          (fun e => { e with nextExons := insertU nextK e.nextExons })
        let iname := intronStr curr.chrom intronStart intronEnd
        match lookupA idb iname with
        | none =>
          let intron : IntronObj :=
            { name := iname, cluster := none,
              graph := NxDiGraph.empty.addEdge currK nextK }
          let idb := insertA idb iname intron
          let edb := mapEntry edb (exonStr e₁)
            (fun e => { e with introns := insertU iname e.introns })
          let edb := mapEntry edb (exonStr e₂)
            (fun e => { e with introns := insertU iname e.introns })
          addIntronsLoop maxIntron edb idb (names ++ [iname]) existing (e₂ :: rest)
        | some intron_ =>
          let idb := mapEntry idb iname
            (fun io => { io with graph := io.graph.addEdge currK nextK })
          let existing := insertU intron_.cluster existing
          let edb := mapEntry edb (exonStr e₁)
            (fun e => { e with introns := insertU iname e.introns })
          let edb := mapEntry edb (exonStr e₂)
            (fun e => { e with introns := insertU iname e.introns })
          addIntronsLoop maxIntron edb idb (names ++ [iname]) existing (e₂ :: rest)
    | _, _ => .error .crash

/-- The absorption loop of `addIntrons`: for each touched cluster id copy its
edges into the fresh cluster graph and pop it from the table.  A `None` id
(a cluster attribute that was never assigned) or a missing id is the Python
`KeyError`. -/
def absorbClusters (cls : ClusterTable) (acc : NxDiGraph String) :
    List (Option Nat) → Except GErr (ClusterTable × NxDiGraph String)
  | [] => .ok (cls, acc)
  | none :: _ => .error .crash
  | some k :: rest =>
    match lookupA cls k with
    | none => .error .crash
    | some cg => absorbClusters (eraseA cls k) (acc.addEdgesFrom cg.edges) rest

/-- `for intron in cluster.nodes(): intronDb[intron].graph['cluster'] = n`
with the Python `KeyError` on a node absent from `intronDb`. -/
def reassignNodes (idb : IntronDb) (clusterNo : Nat) :
    List String → Except GErr IntronDb
  | [] => .ok idb
  | n :: rest =>
    match lookupA idb n with
    | none => .error .crash
    | some _ =>
      reassignNodes (mapEntry idb n (fun io => { io with cluster := some clusterNo }))
        clusterNo rest

/-- `for intron in introns: intron.graph['cluster'] = clusterNo`: the objects
in `introns` are aliased into `intronDb`, so this is an in-place update at
their keys. -/
def assignIntronClusters (idb : IntronDb) (names : List String) (clusterNo : Nat) :
    IntronDb :=
  names.foldl (fun db n => mapEntry db n (fun io => { io with cluster := some clusterNo })) idb

/-- `addIntrons(exons, intronDb, exonDb, clusters, clusterNo)`.  After the
pair loop: if no intron was produced the tables are left as the loop made
them; with no touched cluster a fresh cluster is created from this
alignment's introns (a path if several, an isolated node if one); otherwise
all touched clusters are absorbed into a fresh graph, their nodes'
`cluster` attributes are repointed, this alignment's introns are added and
assigned, and the new cluster is stored at `clusterNo`. -/
def addIntrons (maxIntron : Int) (s : GimmeState) (exons : List ExonObj)
    (clusterNo : Nat) : Except GErr GimmeState :=
  match addIntronsLoop maxIntron s.exonDb s.intronDb [] [] exons with
  | .error e => .error e
  | .ok (edb, idb, names, existing) =>
    match names with
    | [] => .ok { exonDb := edb, intronDb := idb, clusters := s.clusters }
    | n₀ :: _ =>
      if existing = [] then
        let cg :=
          if names.length > 1 then NxDiGraph.empty.addPath names
          else NxDiGraph.empty.addNode n₀
        let idb := assignIntronClusters idb names clusterNo
        .ok { exonDb := edb, intronDb := idb,
              clusters := insertA s.clusters clusterNo cg }
      else
        match absorbClusters s.clusters NxDiGraph.empty existing with
        | .error e => .error e
        | .ok (cls, acc) =>
          match reassignNodes idb clusterNo acc.nodes with
          | .error e => .error e
          | .ok idb =>
            let cg :=
              if names.length > 1 then acc.addPath names
              else acc.addNode n₀
            let idb := assignIntronClusters idb names clusterNo
            .ok { exonDb := edb, intronDb := idb,
                  clusters := insertA cls clusterNo cg }

/-- `mergeClusters(exonDb)`: build the undirected big-cluster graph over the
cluster ids (possibly `None`) attached to each exon's incident introns. -/
def mergeClusters (edb : ExonDb) (idb : IntronDb) :
    Except GErr (NxGraph (Option Nat)) :=
  edb.foldlM
    (fun bc p => do
      let path ← p.2.introns.mapM (fun iname =>
        orCrash ((lookupA idb iname).map (fun io => io.cluster)))
      if path.length > 1 then .ok (bc.addPath path)
      else
        match path with
        | [c] => .ok (bc.addNode c)
        | _ => .ok bc)
    NxGraph.empty

/-- Splice a node out of the graph, reattaching its outgoing edges to a kept
node: `g.add_edges_from([(keep, n) for n in g.successors(drop)])` followed by
`g.remove_node(drop)`. -/
def reattachSuccessors (g : NxDiGraph String) (keepK dropK : String) :
    NxDiGraph String :=
  (g.addEdgesFrom ((g.successors dropK).map (fun n => (keepK, n)))).removeNode dropK

/-- Splice a node out of the graph, reattaching its incoming edges to a kept
node: `g.add_edges_from([(n, keep) for n in g.predecessors(drop)])` followed
by `g.remove_node(drop)`. -/
def reattachPredecessors (g : NxDiGraph String) (keepK dropK : String) :
    NxDiGraph String :=
  (g.addEdgesFrom ((g.predecessors dropK).map (fun n => (n, keepK)))).removeNode dropK

/-- `collapseExons` pass 1 loop (exons sorted by `(end, start)`), carrying the
current exon.  When two compared exons share an `end`: a left-terminal
(`terminal == 1`) later exon is spliced out (its successors reattached to the
current exon, its node removed, the current exon kept); otherwise, when the
current exon is left-terminal and the start difference is within `minUTR`,
the current exon is spliced out instead and the scan advances. -/
def collapsePass1 (minUTR : Int) (g : NxDiGraph String) (curr : ExonObj) :
    List ExonObj → NxDiGraph String
  | [] => g
  | next :: rest =>
    if curr.stop = next.stop then
      if next.terminal = some 1 then
        collapsePass1 minUTR (reattachSuccessors g (exonStr curr) (exonStr next))
          curr rest
      else
        if curr.terminal = some 1 ∧ next.start - curr.start ≤ minUTR then
          collapsePass1 minUTR (reattachSuccessors g (exonStr next) (exonStr curr))
            next rest
        else
          collapsePass1 minUTR g next rest
    else
      collapsePass1 minUTR g next rest

/-- `collapseExons` pass 2 loop (exons sorted by `(start, end)`): symmetric
logic over a shared `start` using predecessor rewiring and the
right-terminal flag (`terminal == 2`). -/
def collapsePass2 (minUTR : Int) (g : NxDiGraph String) (curr : ExonObj) :
    List ExonObj → NxDiGraph String
  | [] => g
  | next :: rest =>
    if curr.start = next.start then
      if curr.terminal = some 2 then
        collapsePass2 minUTR (reattachPredecessors g (exonStr next) (exonStr curr))
          next rest
      else
        if next.terminal = some 2 then
          if next.stop - curr.stop ≤ minUTR then
            collapsePass2 minUTR (reattachPredecessors g (exonStr curr) (exonStr next))
              curr rest
          else
            collapsePass2 minUTR g next rest
        else
          collapsePass2 minUTR g next rest
    else
      collapsePass2 minUTR g next rest

/-- The comprehension `[exonDb[e] for e in keys]` with its `KeyError`. -/
def lookupExons (edb : ExonDb) : List String → Except GErr (List ExonObj)
  | [] => .ok []
  | k :: rest =>
    match lookupA edb k with
    | none => .error .crash
    | some e =>
      match lookupExons edb rest with
      | .error err => .error err
      | .ok es => .ok (e :: es)

/-- `collapseExons(g, exonDb)`: look the graph's nodes up in `exonDb`
(`KeyError` on a miss), sort by `(end, start)` and run pass 1, then re-read
the surviving nodes, sort by `(start, end)` and run pass 2.  Indexing
`sortedExons[0]` crashes on an empty graph. -/
def collapseExonsF (minUTR : Int) (edb : ExonDb) (g : NxDiGraph String) :
    Except GErr (NxDiGraph String) := do
  let exons ← lookupExons edb g.nodes
  match pySorted byEndStart exons with
  | [] => .error .crash
  | c :: rest =>
    let g1 := collapsePass1 minUTR g c rest
    let exons2 ← lookupExons edb g1.nodes
    match pySorted byStartEnd exons2 with
    | [] => .error .crash
    | c2 :: rest2 => .ok (collapsePass2 minUTR g1 c2 rest2)

/-- The `for nex in cluster.successors(...)` loop of `walkDown`, carrying the
mutable `path` across iterations (the unconditional `path.pop()` drops the
last element even when nothing was appended).  The recursive `walkDown` call
is passed in as `dive`. -/
def walkDownLoop (dive : String → List String → Except GErr (List (List String))) :
    List String → List String → Except GErr (List (List String))
  | [], _ => .ok []
  | nex :: rest, path =>
    let path1 := if nex ∈ path then path else path ++ [nex]
    match dive nex path1 with
    | .error e => .error e
    | .ok em =>
      match walkDownLoop dive rest path1.dropLast with
      | .error e => .error e
      | .ok em2 => .ok (em ++ em2)

/-- `walkDown(intronCoord, path, allPath, cluster)`: emit a copy of the
current path at a node with no successors, else iterate over the
successors — note the source appends an unvisited successor to the path but
recurses on the successor either way, and pops unconditionally afterwards.
`fuel` bounds the recursion depth; running out models non-termination. -/
def walkDownF : Nat → NxDiGraph String → String → List String →
    Except GErr (List (List String))
  | 0, _, _, _ => .error .fuelOut
  | fuel + 1, g, node, path =>
    match g.successors node with
    | [] => .ok [path]
    | s :: ss => walkDownLoop (walkDownF fuel g) (s :: ss) path

/-- `getPath(cluster)`: walk down from every node without predecessors,
collecting all emitted paths in order. -/
def getPathF (fuel : Nat) (g : NxDiGraph String) :
    Except GErr (List (List String)) :=
  let roots := g.nodes.filter (fun n => (g.predecessors n).isEmpty)
  roots.foldlM (fun acc root => do
    let ps ← walkDownF fuel g root [root]
    pure (acc ++ ps)) []

/-- `getPath` completes within some fuel (the real recursion terminates). -/
def getPathTerminates (g : NxDiGraph String) : Prop :=
  ∃ fuel ps, getPathF fuel g = .ok ps

/-- Sum of `exon.end - exon.start` over a list of exons. -/
def sumLens (exons : List ExonObj) : Int :=
  (exons.map (fun e => e.stop - e.start)).sum

/-- `checkCriteria(transcript)`: look up the transcript's exon keys, sort by
`(start, end)`, and accept exactly when the summed exon length is strictly
greater than `minTranscriptLen`. -/
def checkCriteriaF (minTranscriptLen : Int) (edb : ExonDb)
    (transcript : List String) : Except GErr Bool := do
  let exons ← lookupExons edb transcript
  let sorted := pySorted byStartEnd exons
  if sumLens sorted ≤ minTranscriptLen then .ok false else .ok true

/-- The per-chromosome sweep of `merge_exons`, carrying the running exon: an
overlapping next exon (start within the running span) extends it (keeping
the running start) when it reaches further, or is absorbed; otherwise the
running exon is flushed.  When the index runs out the source returns
immediately, so the final running exon is never flushed. -/
def mergeExonsSweep (curr : ExonObj) (acc : List ExonObj) :
    List ExonObj → List ExonObj
  | [] => acc
  | next :: rest =>
    if next.start ≤ curr.stop then
      if next.stop > curr.stop then
        mergeExonsSweep { next with start := curr.start } acc rest
      else
        mergeExonsSweep curr acc rest
    else
      mergeExonsSweep next (acc ++ [curr]) rest

/-- `merge_exons(exons)`: sort each chromosome's single exons by start, then
sweep.  The `return new_exons` sits inside the per-chromosome loop, so the
function returns during the first chromosome's sweep; with no chromosome at
all it falls off the end and returns Python `None` (embedded as
`.ok none`); an empty per-chromosome list crashes on `exons[chrom][0]`. -/
def merge_exons (exons : List (String × List ExonObj)) :
    Except GErr (Option (List (String × List ExonObj))) :=
  let sortedTbl := exons.map (fun p => (p.1, pySorted byStart p.2))
  match sortedTbl with
  | [] => .ok none
  | (chrom, es) :: _ =>
    match es with
    | [] => .error .crash
    | e :: rest => .ok (some [(chrom, mergeExonsSweep e [] rest)])

/-- The loop state of `buildGeneModels`: `transId` is a Python local that is
only (re)bound inside the `if g.nodes():` branch, so it is `none` until the
first nonempty locus and keeps its stale value across empty ones.  Emitted
records are collected in `outputs` (the transcript passed to
`printBedGraph`). -/
structure BGMState where
  removed : List (Option Nat) := []
  numTranscripts : Nat := 0
  geneId : Int := 0
  transId : Option Nat := none
  outputs : List (List String) := []
  excluded : Nat := 0
deriving DecidableEq, Repr

/-- `for intron in cluster.nodes(): g.add_edges_from(intronDb[intron].edges())`. -/
def addIntronEdges (idb : IntronDb) (g : NxDiGraph String) :
    List String → Except GErr (NxDiGraph String)
  | [] => .ok g
  | n :: rest =>
    match lookupA idb n with
    | none => .error .crash
    | some io => addIntronEdges idb (g.addEdgesFrom io.graph.edges) rest

/-- The neighbor loop of `buildGeneModels`: every neighbor that differs from
the current cluster contributes its introns' edges; every neighbor
(self loops included) is marked removed. -/
def neighborLoop (idb : IntronDb) (cls : ClusterTable) (cl : Option Nat)
    (g : NxDiGraph String) (removed : List (Option Nat)) :
    List (Option Nat) → Except GErr (NxDiGraph String × List (Option Nat))
  | [] => .ok (g, removed)
  | nb :: rest =>
    if nb ≠ cl then
      match nb.bind (fun k => lookupA cls k) with
      | none => .error .crash
      | some ncg => do
        let g' ← addIntronEdges idb g ncg.nodes
        neighborLoop idb cls cl g' (insertU nb removed) rest
    else
      neighborLoop idb cls cl g (insertU nb removed) rest

/-- Build one locus graph: union the intron edges of the cluster at `cl`
(`clusters[cl]` raises on a `None` or unknown id) and of all its
big-cluster neighbors, collecting the removed ids. -/
def buildLocusGraph (idb : IntronDb) (cls : ClusterTable)
    (bigC : NxGraph (Option Nat)) (removed : List (Option Nat)) (cl : Option Nat) :
    Except GErr (NxDiGraph String × List (Option Nat)) := do
  let cg ← orCrash (cl.bind (fun k => lookupA cls k))
  let g ← addIntronEdges idb NxDiGraph.empty cg.nodes
  let (g, removed) ← neighborLoop idb cls cl g removed (bigC.neighbors cl)
  .ok (g, insertU cl removed)

/-- The `for transcript in getPath(g)` loop: a transcript passing
`checkCriteria` bumps `transId` and the global transcript count and is
printed; a failing one bumps `excluded`. -/
def processTranscripts (minTransLen : Int) (edb : ExonDb)
    (transId numT : Nat) (outs : List (List String)) (exc : Nat) :
    List (List String) → Except GErr (Nat × Nat × List (List String) × Nat)
  | [] => .ok (transId, numT, outs, exc)
  | t :: rest => do
    let ok ← checkCriteriaF minTransLen edb t
    if ok then
      processTranscripts minTransLen edb (transId + 1) (numT + 1) (outs ++ [t]) exc rest
    else
      processTranscripts minTransLen edb transId numT outs (exc + 1) rest

/-- One iteration of the `buildGeneModels` locus loop (the `--min` mode is an
external collaborator, `get_min_path`, and is not part of this core; the
default all-maximal-paths mode is embedded).  An already-removed cluster is
skipped.  Otherwise the locus graph is built; if it is nonempty a gene id is
tentatively taken, the graph is collapsed, paths are enumerated and
filtered, and the id is retracted when no transcript passed; if it is empty
the source still evaluates `if transId == 0`, reading the stale (or unbound)
`transId` of a previous iteration. -/
def processLocus (fuel : Nat) (minUTR minTransLen : Int) (edb : ExonDb)
    (idb : IntronDb) (cls : ClusterTable) (bigC : NxGraph (Option Nat))
    (st : BGMState) (cl : Option Nat) : Except GErr BGMState :=
  if cl ∈ st.removed then .ok st
  else do
    let gr ← buildLocusGraph idb cls bigC st.removed cl
    if gr.1.nodes = [] then
      match st.transId with
      | none => .error .crash
      | some t =>
        .ok { st with removed := gr.2,
                      geneId := if t = 0 then st.geneId - 1 else st.geneId }
    else
      let g2 ← collapseExonsF minUTR edb gr.1
      let paths ← getPathF fuel g2
      let out ←
        processTranscripts minTransLen edb 0 st.numTranscripts st.outputs st.excluded paths
      .ok { removed := gr.2, numTranscripts := out.2.1,
            geneId := if out.1 = 0 then st.geneId + 1 - 1 else st.geneId + 1,
            transId := some out.1, outputs := out.2.2.1, excluded := out.2.2.2 }

/-- `buildGeneModels(exonDb, intronDb, clusters, bigCluster)` in the default
(all maximal paths) mode. -/
def buildGeneModelsF (fuel : Nat) (minUTR minTransLen : Int) (edb : ExonDb)
    (idb : IntronDb) (cls : ClusterTable) (bigC : NxGraph (Option Nat)) :
    Except GErr BGMState :=
  bigC.nodes.foldlM (processLocus fuel minUTR minTransLen edb idb cls bigC)
    ({} : BGMState)

/-- State of the `main` parsing loop. -/
structure MainState where
  gimme : GimmeState := {}
  clusterNo : Nat := 0
  singles : List (String × List ExonObj) := []
deriving DecidableEq, Repr

/-- Record a single-exon alignment under its chromosome. -/
def addSingle (tbl : List (String × List ExonObj)) (e : ExonObj) :
    List (String × List ExonObj) :=
  match lookupA tbl e.chrom with
  | none => tbl ++ [(e.chrom, [e])]
  | some l => insertA tbl e.chrom (l ++ [e])

/-- One iteration of the `main` loop over parsed exon runs: a spliced run
(more than one exon) goes through `addExon` and `addIntrons` and bumps the
cluster counter (the counter is bumped by `main`, unconditionally, not by
`addIntrons`); a single exon is set aside. -/
def mainStep (maxIntron : Int) (st : MainState) (exons : List ExonObj) :
    Except GErr MainState :=
  if exons.length > 1 then
    match addIntrons maxIntron
        { st.gimme with exonDb := addExon st.gimme.exonDb exons } exons st.clusterNo with
    | .error e => .error e
    | .ok s' => .ok { gimme := s', clusterNo := st.clusterNo + 1, singles := st.singles }
  else
    match exons with
    | [e] => .ok { st with singles := addSingle st.singles e }
    | _ => .error .crash

/-- Fold of `mainStep` from the initial empty registries. -/
def processAlignments (maxIntron : Int) (als : List (List ExonObj)) :
    Except GErr MainState :=
  als.foldlM (mainStep maxIntron) ({} : MainState)

/-- Result of the spliced-alignment part of `main`: the final registries, the
big cluster, and the `buildGeneModels` outcome. -/
structure RunResult where
  state : MainState
  bigCluster : NxGraph (Option Nat)
  bgm : BGMState
deriving DecidableEq, Repr

/-- `main(inputFiles)` up to and including `buildGeneModels`: parse every
alignment (given as a chromosome plus `(tStart, blockSize)` blocks), feed
the spliced runs through the registries, merge clusters and build the gene
models.  The subsequent single-exon merging is `merge_exons` above. -/
def runGimme (fuel : Nat) (minExon gapSize maxIntron minUTR minTransLen : Int)
    (inputs : List (String × List (Int × Int))) : Except GErr RunResult := do
  let als := (inputs.map (fun p => parseAlignment minExon gapSize p.1 p.2)).flatten
  let st ← processAlignments maxIntron als
  let bigC ← mergeClusters st.gimme.exonDb st.gimme.intronDb
  let bgm ← buildGeneModelsF fuel minUTR minTransLen st.gimme.exonDb
    st.gimme.intronDb st.gimme.clusters bigC
  .ok ⟨st, bigC, bgm⟩

/-- Consecutive gaps all exceed the threshold: the shape of `deleteGap`
output. -/
def gapSeparated (gapSize : Int) : List ExonObj → Prop
  | [] => True
  | [_] => True
  | a :: b :: rest => b.start - a.stop > gapSize ∧ gapSeparated gapSize (b :: rest)

/-- A splice graph with a cycle reachable from a root: `r → a → b → a`. -/
def cyclicGraph : NxDiGraph String :=
  ((NxDiGraph.empty.addEdge "r" "a").addEdge "a" "b").addEdge "b" "a"

/-- `getPath` exhausts every finite recursion budget on this graph. -/
def getPathDiverges (g : NxDiGraph String) : Prop :=
  ∀ fuel, getPathF fuel g = .error .fuelOut

/-- The two alignments of the end-to-end example: exons `[100-200, 300-400]`
and `[100-200, 300-450]` on `chr1`, as `(tStart, blockSize)` blocks. -/
def c1Inputs : List (String × List (Int × Int)) :=
  [("chr1", [(100, 100), (300, 100)]), ("chr1", [(100, 100), (300, 150)])]

/-- The exon registry produced by the two example alignments. -/
def c1ExonDb : ExonDb :=
  [("chr1:100-200",
    { chrom := "chr1", start := 100, stop := 200, terminal := some 1,
      nextExons := ["chr1:300-400", "chr1:300-450"], introns := ["chr1:201-299"] }),
   ("chr1:300-400",
    { chrom := "chr1", start := 300, stop := 400, terminal := some 2,
      nextExons := [], introns := ["chr1:201-299"] }),
   ("chr1:300-450",
    { chrom := "chr1", start := 300, stop := 450, terminal := some 2,
      nextExons := [], introns := ["chr1:201-299"] })]

/-- The single locus graph of the example (both alignments share the intron
`chr1:201-299`, so they sit in one cluster / one locus). -/
def c1LocusGraph : NxDiGraph String :=
  ⟨["chr1:100-200", "chr1:300-400", "chr1:300-450"],
   [("chr1:100-200", "chr1:300-400"), ("chr1:100-200", "chr1:300-450")]⟩

/-- The locus graph after `collapseExons`: pass 2 splices the right-terminal
exon `300-400` into `300-450` (start shared, `450 - 400 = 50 ≤ MIN_UTR`). -/
def c1Collapsed : NxDiGraph String :=
  ⟨["chr1:100-200", "chr1:300-450"], [("chr1:100-200", "chr1:300-450")]⟩

/-- Whether a transcript passes the length filter (with a successful
lookup). -/
def passesFilter (minTransLen : Int) (edb : ExonDb) (p : List String) : Bool :=
  decide (checkCriteriaF minTransLen edb p = .ok true)

/-- Gene/transcript accounting of one `buildGeneModels` locus iteration:
either the locus graph is empty — then no transcript is emitted and the
gene counter moves by the *stale* transcript counter of a previous locus
(`.ok` at all requires it to be bound) — or the graph is nonempty and the
gene id is consumed exactly when at least one enumerated transcript passes
the length filter. -/
def GeneAccounting (fuel : Nat) (minUTR minTransLen : Int) (edb : ExonDb)
    (idb : IntronDb) (cls : ClusterTable) (bigC : NxGraph (Option Nat))
    (st st' : BGMState) (cl : Option Nat) : Prop :=
  ∃ g removed, buildLocusGraph idb cls bigC st.removed cl = .ok (g, removed) ∧
    ((g.nodes = [] ∧
        st'.outputs = st.outputs ∧ st'.numTranscripts = st.numTranscripts ∧
        (∃ t, st.transId = some t ∧
          st'.geneId = if t = 0 then st.geneId - 1 else st.geneId)) ∨
     (g.nodes ≠ [] ∧
      ∃ g2 paths, collapseExonsF minUTR edb g = .ok g2 ∧
        getPathF fuel g2 = .ok paths ∧
        st'.geneId = (if paths.countP (passesFilter minTransLen edb) = 0
          then st.geneId else st.geneId + 1) ∧
        st'.numTranscripts =
          st.numTranscripts + paths.countP (passesFilter minTransLen edb) ∧
        st'.outputs = st.outputs ++ paths.filter (passesFilter minTransLen edb) ∧
        st'.transId = some (paths.countP (passesFilter minTransLen edb))))

/-- A one-intron locus used to witness the gene accounting theorem. -/
def wEdb : ExonDb :=
  [("chr1:0-400",
    { chrom := "chr1", start := 0, stop := 400, terminal := some 1,
      introns := ["chr1:401-499"] }),
   ("chr1:500-900",
    { chrom := "chr1", start := 500, stop := 900, terminal := some 2,
      introns := ["chr1:401-499"] })]

/-- Intron table of the witness locus. -/
def wIdb : IntronDb :=
  [("chr1:401-499",
    { name := "chr1:401-499", cluster := some 0,
      graph := ⟨["chr1:0-400", "chr1:500-900"], [("chr1:0-400", "chr1:500-900")]⟩ })]

/-- Cluster table of the witness locus. -/
def wCls : ClusterTable := [(0, ⟨["chr1:401-499"], []⟩)]

/-- Big cluster of the witness locus. -/
def wBigC : NxGraph (Option Nat) := ⟨[some 0], []⟩

instance {α : Type} [DecidableEq α] (g : NxDiGraph α) : Decidable g.WF := by
  unfold NxDiGraph.WF
  exact List.decidableBAll _ _

/-- Scan state used to witness the pass-1 splice: current exon `[0-100]`,
later exon `[50-100]` (same end, left-terminal) with one successor. -/
def c6wG : NxDiGraph String :=
  ⟨["chr1:0-100", "chr1:50-100", "chr1:200-300"],
   [("chr1:50-100", "chr1:200-300")]⟩

/-- The current exon of the witness scan. -/
def c6wCurr : ExonObj := mkExonObj "chr1" 0 100

/-- The later, left-terminal exon of the witness scan. -/
def c6wNext : ExonObj := { mkExonObj "chr1" 50 100 with terminal := some 1 }

/-- The remaining scan entries of the witness. -/
def c6wRest : List ExonObj := [mkExonObj "chr1" 200 300]

/-- Registry for the C6 counterexample: adjacent sorted exons `[0-100]` and
`[50-100]` share their end and the later one is RIGHT-terminal (`2`). -/
def c6cDb : ExonDb :=
  [("chr1:0-100", mkExonObj "chr1" 0 100),
   ("chr1:50-100", { mkExonObj "chr1" 50 100 with terminal := some 2 }),
   ("chr1:200-300", mkExonObj "chr1" 200 300)]

/-- Graph for the C6 counterexample; the right-terminal exon has a successor
that the claim says would be reattached. -/
def c6cG : NxDiGraph String :=
  ⟨["chr1:0-100", "chr1:50-100", "chr1:200-300"],
   [("chr1:50-100", "chr1:200-300")]⟩

/-- Keys of an association list are pairwise distinct. -/
def nodupKeys {κ ν : Type} (l : List (κ × ν)) : Prop := (l.map Prod.fst).Nodup

/-- The terminal values the program ever stores: `None`, `1` or `2`. -/
def flagOK (t : Option Nat) : Prop := t = none ∨ t = some 1 ∨ t = some 2

/-- The key `c` occurs at a strictly internal position of the alignment:
it is among the alignment's exon keys but is neither the first nor the last
exon's key. -/
def InternalIn (c : String) (al : List ExonObj) : Prop :=
  c ∈ al.map exonStr ∧ (∀ z, al.head? = some z → exonStr z ≠ c) ∧
    (∀ z, al.getLast? = some z → exonStr z ≠ c)

/-- The key `c` is the first or the last exon's key of the alignment. -/
def TerminalIn (c : String) (al : List ExonObj) : Prop :=
  (∃ z, al.head? = some z ∧ exonStr z = c) ∨
  (∃ z, al.getLast? = some z ∧ exonStr z = c)

/-- Alignment containing `chr1:200-300` internally. -/
def c7a : List ExonObj :=
  [mkExonObj "chr1" 0 100, mkExonObj "chr1" 200 300, mkExonObj "chr1" 400 500]

/-- Alignment containing `chr1:200-300` as its first (left-terminal) exon. -/
def c7b : List ExonObj :=
  [mkExonObj "chr1" 200 300, mkExonObj "chr1" 600 700]

/-- Every registry entry's key is its exon's identity string. -/
def KeysConsistent (db : ExonDb) : Prop := ∀ p ∈ db, exonStr p.2 = p.1

/-- One registry transformation that keeps keys consistent and never touches
a stored exon's coordinates. -/
def EdbStep (d1 d2 : ExonDb) : Prop :=
  (KeysConsistent d1 → KeysConsistent d2) ∧
  (∀ k e, lookupA d1 k = some e → ∃ e', lookupA d2 k = some e' ∧
    e'.chrom = e.chrom ∧ e'.start = e.start ∧ e'.stop = e.stop)

/-- Every node of the graph is an endpoint of some edge of the graph. -/
def Covered {α : Type} (g : NxDiGraph α) : Prop :=
  ∀ n ∈ g.nodes, ∃ e ∈ g.edges, e.1 = n ∨ e.2 = n

/-- Relation between the intron registry before (`idb₀`) and after (`idb`) a
prefix of the pair loop of `addIntrons`, together with the accumulated
`names` and `existing` lists: keys grow exactly by `names`; pre-existing
entries keep their `cluster` attribute (only their graphs gain edges); newly
created entries carry `cluster = none`; every collected cluster id is the
attribute of some pre-existing entry named by the alignment; and every
alignment intron that pre-existed has its attribute collected. -/
structure LoopSpec (idb₀ idb : IntronDb) (names : List String)
    (existing : List (Option Nat)) : Prop where
  keysIff : ∀ k, (lookupA idb k).isSome ↔ ((lookupA idb₀ k).isSome ∨ k ∈ names)
  attrOld : ∀ k o₀, lookupA idb₀ k = some o₀ →
    ∃ o, lookupA idb k = some o ∧ o.cluster = o₀.cluster
  attrAll : ∀ k o, lookupA idb k = some o →
    (∃ o₀, lookupA idb₀ k = some o₀ ∧ o.cluster = o₀.cluster) ∨
    (o.cluster = none ∧ k ∈ names ∧ lookupA idb₀ k = none)
  exFrom : ∀ c ∈ existing, c = none ∨
    ∃ n ∈ names, ∃ o₀, lookupA idb₀ n = some o₀ ∧ o₀.cluster = c
  exAll : ∀ n ∈ names, ∀ o₀, lookupA idb₀ n = some o₀ → o₀.cluster ∈ existing
  nodup : nodupKeys idb₀ → nodupKeys idb
  exNodup : existing.Nodup

/-- The cluster-table invariant maintained by the main loop: the tables have
unique keys, every registered intron's `cluster` attribute names a live
cluster whose node set contains it, membership in a cluster's node set
forces that attribute (so the containing cluster is unique), cluster nodes
are registered introns, cluster ids are smaller than the id counter, and
every cluster graph is well-formed and is either a single isolated node or
free of isolated nodes. -/
structure ClusterInv (s : GimmeState) (counter : Nat) : Prop where
  idbNodup : nodupKeys s.intronDb
  clsNodup : nodupKeys s.clusters
  attrValid : ∀ p ∈ s.intronDb, ∃ k g, p.2.cluster = some k ∧
    lookupA s.clusters k = some g ∧ p.1 ∈ g.nodes
  uniq : ∀ p ∈ s.intronDb, ∀ q ∈ s.clusters, p.1 ∈ q.2.nodes →
    p.2.cluster = some q.1
  nodesInDb : ∀ q ∈ s.clusters, ∀ n ∈ q.2.nodes,
    (lookupA s.intronDb n).isSome
  fresh : ∀ q ∈ s.clusters, q.1 < counter
  shape : ∀ q ∈ s.clusters,
    (∃ x, q.2.nodes = [x] ∧ q.2.edges = []) ∨ Covered q.2
  clwf : ∀ q ∈ s.clusters, q.2.WF

theorem deleteGapAux_spec (gapSize : Int) :
    ∀ (l : List ExonObj) (curr : ExonObj),
      ∃ h t, deleteGapAux gapSize curr l = h :: t ∧ h.start = curr.start ∧
        gapSeparated gapSize (h :: t) := by
  intro l
  induction l with
  | nil =>
    intro curr
    exact ⟨curr, [], rfl, rfl, trivial⟩
  | cons next rest ih =>
    intro curr
    by_cases hm : next.start - curr.stop ≤ gapSize
    · have := ih { curr with stop := next.stop }
      simpa [deleteGapAux, hm] using this
    · obtain ⟨h, t, heq, hstart, hsep⟩ := ih next
      refine ⟨curr, h :: t, ?_, rfl, ?_, hsep⟩
      · simp [deleteGapAux, hm, heq]
      · rw [hstart]; omega

theorem deleteGapAux_separated (gapSize : Int) :
    ∀ (l : List ExonObj) (c : ExonObj), gapSeparated gapSize (c :: l) →
      deleteGapAux gapSize c l = c :: l := by
  intro l
  induction l with
  | nil => intro c _; rfl
  | cons next rest ih =>
    intro c hsep
    obtain ⟨hgap, hsep'⟩ := hsep
    have hm : ¬ (next.start - c.stop ≤ gapSize) := by omega
    simp [deleteGapAux, hm, ih next hsep']

/-- C8 (gap-fill idempotence): for every nonempty block list and any gap
threshold, `deleteGap` applied to its own output returns that output
unchanged. -/
theorem deleteGap_idempotent (gapSize : Int) (l : List ExonObj) (hne : l ≠ []) :
    deleteGap gapSize (deleteGap gapSize l) = deleteGap gapSize l := by
  match l, hne with
  | e :: es, _ =>
    show deleteGap gapSize (deleteGapAux gapSize e es) = deleteGapAux gapSize e es
    obtain ⟨h, t, heq, _, hsep⟩ := deleteGapAux_spec gapSize es e
    rw [heq]
    show deleteGapAux gapSize h t = h :: t
    exact deleteGapAux_separated gapSize t h hsep

/-- Witness for C8 at a concrete input: two blocks with a small gap merge and
the result is a fixed point. -/
theorem deleteGap_idempotent_witness :
    ([mkExonObj "chr1" 0 50, mkExonObj "chr1" 55 90] ≠ ([] : List ExonObj)) ∧
    deleteGap 10 (deleteGap 10 [mkExonObj "chr1" 0 50, mkExonObj "chr1" 55 90]) =
      deleteGap 10 [mkExonObj "chr1" 0 50, mkExonObj "chr1" 55 90] :=
  ⟨by decide, deleteGap_idempotent 10 _ (by decide)⟩

theorem sumLens_pySorted (l : List ExonObj) :
    sumLens (pySorted byStartEnd l) = sumLens l := by
  unfold sumLens pySorted
  exact List.Perm.sum_eq ((List.perm_insertionSort byStartEnd l).map _)

/-- C9 (length filter): `checkCriteria` accepts a transcript exactly when the
sum of its exon lengths is strictly greater than `MIN_TRANSCRIPT_LEN` (the
sort inside does not change the sum); in particular a transcript whose
summed length equals the threshold is rejected. -/
theorem checkCriteria_iff_gt (minLen : Int) (edb : ExonDb) (t : List String)
    (exs : List ExonObj)
    (hx : lookupExons edb t = Except.ok exs) :
    checkCriteriaF minLen edb t = .ok (decide (sumLens exs > minLen)) ∧
    (sumLens exs = minLen → checkCriteriaF minLen edb t = .ok false) := by
  have h1 : checkCriteriaF minLen edb t =
      if sumLens (pySorted byStartEnd exs) ≤ minLen then .ok false else .ok true := by
    simp [checkCriteriaF, hx, Bind.bind, Except.bind]
  rw [sumLens_pySorted] at h1
  constructor
  · rw [h1]
    by_cases h : sumLens exs ≤ minLen
    · simp only [if_pos h]
      have : ¬ (sumLens exs > minLen) := by omega
      simp [this]
    · simp only [if_neg h]
      have : sumLens exs > minLen := by omega
      simp [this]
  · intro he
    rw [h1, if_pos (le_of_eq he)]

/-- Witness for C9: a two-exon transcript of summed length exactly 200 is
rejected by the filter with threshold 200. -/
theorem checkCriteria_witness :
    ∃ exs, (lookupExons
          [("chr1:0-120", mkExonObj "chr1" 0 120),
           ("chr1:200-280", mkExonObj "chr1" 200 280)]
          ["chr1:0-120", "chr1:200-280"] = Except.ok exs) ∧
      checkCriteriaF 200
        [("chr1:0-120", mkExonObj "chr1" 0 120),
         ("chr1:200-280", mkExonObj "chr1" 200 280)]
        ["chr1:0-120", "chr1:200-280"] = .ok (decide (sumLens exs > 200)) ∧
      (sumLens exs = 200 → checkCriteriaF 200
        [("chr1:0-120", mkExonObj "chr1" 0 120),
         ("chr1:200-280", mkExonObj "chr1" 200 280)]
        ["chr1:0-120", "chr1:200-280"] = .ok false) :=
  ⟨[mkExonObj "chr1" 0 120, mkExonObj "chr1" 200 280], by decide,
    (checkCriteria_iff_gt 200 _ _ _ (by decide)).1,
    (checkCriteria_iff_gt 200 _ _ _ (by decide)).2⟩

/-- C2 (code bug): on the claim's own input — single exons `[50-150]` and
`[120-200]` on one chromosome — `merge_exons` returns an empty list for that
chromosome: the sweep correctly merges the pair into `[50-200]` as the
running exon, but the `return new_exons` inside the loop fires on the
`IndexError` before the running exon is ever flushed, so nothing is emitted
(contrast `deleteGap`, which appends the running exon after its loop). -/
theorem merge_exons_drops_merged_exon :
    merge_exons [("chr1", [mkExonObj "chr1" 50 150, mkExonObj "chr1" 120 200])] =
      .ok (some [("chr1", [])]) := by
  decide

theorem walkDownF_cycle_ab : ∀ fuel,
    (∀ path, walkDownF fuel cyclicGraph "a" path = .error .fuelOut) ∧
    (∀ path, walkDownF fuel cyclicGraph "b" path = .error .fuelOut) := by
  intro fuel
  induction fuel with
  | zero => exact ⟨fun _ => by rw [walkDownF], fun _ => by rw [walkDownF]⟩
  | succ n ih =>
    have ha : cyclicGraph.successors "a" = ["b"] := by decide
    have hb : cyclicGraph.successors "b" = ["a"] := by decide
    constructor
    · intro path
      rw [walkDownF, ha]
      simp [walkDownLoop, ih.2]
    · intro path
      rw [walkDownF, hb]
      simp [walkDownLoop, ih.1]

theorem walkDownF_cycle_root :
    ∀ fuel path, walkDownF fuel cyclicGraph "r" path = .error .fuelOut := by
  intro fuel path
  cases fuel with
  | zero => rw [walkDownF]
  | succ n =>
    have hr : cyclicGraph.successors "r" = ["a"] := by decide
    rw [walkDownF, hr]
    simp [walkDownLoop, (walkDownF_cycle_ab n).1]

/-- C4 (code bug): the per-path visited marking of `walkDown` does not
prevent infinite recursion on cycles — `if nex not in path` only guards the
`append`, the recursive call `walkDown(nex, ...)` is made regardless — so on
the graph `r → a → b → a` the enumeration diverges (it fails with
`fuelOut` for every finite recursion budget, and no budget makes it
return). -/
theorem getPath_diverges_on_cycle :
    getPathDiverges cyclicGraph ∧ ¬ getPathTerminates cyclicGraph := by
  have hdiv : getPathDiverges cyclicGraph := by
    intro fuel
    have hroots : cyclicGraph.nodes.filter
        (fun n => (cyclicGraph.predecessors n).isEmpty) = ["r"] := by decide
    simp [getPathF, hroots, List.foldlM, walkDownF_cycle_root, Bind.bind, Except.bind]
  refine ⟨hdiv, ?_⟩
  rintro ⟨fuel, ps, hok⟩
  rw [hdiv fuel] at hok
  exact Except.noConfusion hok

/-- C1 counterexample: running the pipeline on the example input with the
default configuration emits NO output record at all and ends with a gene
count of 0 (the tentative gene id is retracted) — the claimed second
transcript (length 250) is not emitted. -/
theorem c1_end_to_end_nothing_emitted :
    (runGimme 100 MIN_EXON GAP_SIZE MAX_INTRON MIN_UTR MIN_TRANSCRIPT_LEN
      c1Inputs).map (fun r => (r.bgm.outputs, r.bgm.geneId)) =
      .ok ([], 0) := by
  decide

/-- C1 amended: the two example alignments do merge into one locus, but the
code then collapses the two alternative 3' ends into one, enumerates exactly
one transcript path `[100-200, 300-450]` of total exon length 250, and the
length filter excludes it (250 ≤ 300), so no record is emitted, the
transcript count stays 0 and the tentatively assigned gene id is retracted
back to 0 (with 1 excluded path counted). -/
theorem c1_end_to_end_amended :
    (runGimme 100 MIN_EXON GAP_SIZE MAX_INTRON MIN_UTR MIN_TRANSCRIPT_LEN
      c1Inputs).map
      (fun r => (r.state.gimme.exonDb, r.bigCluster.nodes, r.bgm)) =
      .ok (c1ExonDb, [some 1],
        { removed := [some 1], numTranscripts := 0, geneId := 0,
          transId := some 0, outputs := [], excluded := 1 }) ∧
    (runGimme 100 MIN_EXON GAP_SIZE MAX_INTRON MIN_UTR MIN_TRANSCRIPT_LEN
      c1Inputs).map
      (fun r => buildLocusGraph r.state.gimme.intronDb r.state.gimme.clusters
        r.bigCluster [] (some 1)) =
      .ok (.ok (c1LocusGraph, [some 1])) ∧
    collapseExonsF MIN_UTR c1ExonDb c1LocusGraph = .ok c1Collapsed ∧
    getPathF 100 c1Collapsed = .ok [["chr1:100-200", "chr1:300-450"]] ∧
    sumLens [mkExonObj "chr1" 100 200, mkExonObj "chr1" 300 450] = 250 ∧
    checkCriteriaF MIN_TRANSCRIPT_LEN c1ExonDb
      ["chr1:100-200", "chr1:300-450"] = .ok false := by
  refine ⟨by decide, by decide, by decide, by decide, by decide, by decide⟩

theorem processTranscripts_spec (minTransLen : Int) (edb : ExonDb) :
    ∀ (paths : List (List String)) (tid numT : Nat) (outs : List (List String))
      (exc : Nat) (out : Nat × Nat × List (List String) × Nat),
      processTranscripts minTransLen edb tid numT outs exc paths = .ok out →
      out.1 = tid + paths.countP (passesFilter minTransLen edb) ∧
      out.2.1 = numT + paths.countP (passesFilter minTransLen edb) ∧
      out.2.2.1 = outs ++ paths.filter (passesFilter minTransLen edb) := by
  intro paths
  induction paths with
  | nil =>
    intro tid numT outs exc out hok
    simp [processTranscripts] at hok
    simp [← hok]
  | cons t rest ih =>
    intro tid numT outs exc out hok
    rcases h : checkCriteriaF minTransLen edb t with e | b
    · simp [processTranscripts, h, Bind.bind, Except.bind] at hok
    · rcases b with _ | _
      · have hok' : processTranscripts minTransLen edb tid numT outs (exc + 1) rest = .ok out := by
          simpa [processTranscripts, h, Bind.bind, Except.bind] using hok
        have hp : passesFilter minTransLen edb t = false := by
          simp [passesFilter, h]
        obtain ⟨h1, h2, h3⟩ := ih tid numT outs (exc + 1) out hok'
        simp [List.countP_cons, List.filter_cons, hp, h1, h2, h3]
      · have hok' : processTranscripts minTransLen edb (tid + 1) (numT + 1)
            (outs ++ [t]) exc rest = .ok out := by
          simpa [processTranscripts, h, Bind.bind, Except.bind] using hok
        have hp : passesFilter minTransLen edb t = true := by
          simp [passesFilter, h]
        obtain ⟨h1, h2, h3⟩ := ih (tid + 1) (numT + 1) (outs ++ [t]) exc out hok'
        have hone : (if true = true then 1 else 0) = 1 := rfl
        refine ⟨?_, ?_, ?_⟩
        · rw [h1, List.countP_cons, hp, hone]; omega
        · rw [h2, List.countP_cons, hp, hone]; omega
        · rw [h3, List.filter_cons, hp]; simp

/-- Inversion of a successful `Except` bind. -/
theorem bind_ok_inv {beta gamma : Type} {x : Except GErr beta}
    {f : beta → Except GErr gamma} {c : gamma}
    (h : x >>= f = .ok c) : ∃ b, x = .ok b ∧ f b = .ok c := by
  cases x with
  | error e => simp [Bind.bind, Except.bind] at h
  | ok b => exact ⟨b, rfl, by simpa [Bind.bind, Except.bind] using h⟩

/-- C5 amended: for every locus not yet marked removed that `processLocus`
completes on, the gene id is consumed iff the locus graph is nonempty and at
least one transcript survives the filter (it is retracted when none does);
an empty locus graph emits nothing, but far from being ignored it reads the
stale previous `transId` (an unbound-variable error if there is none) and
decrements the gene count exactly when that stale counter is zero. -/
theorem processLocus_gene_accounting (fuel : Nat) (minUTR minTransLen : Int)
    (edb : ExonDb) (idb : IntronDb) (cls : ClusterTable)
    (bigC : NxGraph (Option Nat)) (st st' : BGMState) (cl : Option Nat)
    (hnr : cl ∉ st.removed)
    (hok : processLocus fuel minUTR minTransLen edb idb cls bigC st cl = .ok st') :
    GeneAccounting fuel minUTR minTransLen edb idb cls bigC st st' cl := by
  unfold processLocus at hok
  rw [if_neg hnr] at hok
  obtain ⟨gr, hbuild, hok⟩ := bind_ok_inv hok
  refine ⟨gr.1, gr.2, by simpa using hbuild, ?_⟩
  by_cases hg : gr.1.nodes = []
  · left
    rw [if_pos hg] at hok
    rcases ht : st.transId with _ | t <;> rw [ht] at hok
    · simp at hok
    · simp only [Except.ok.injEq] at hok
      subst hok
      exact ⟨hg, rfl, rfl, t, rfl, rfl⟩
  · right
    rw [if_neg hg] at hok
    obtain ⟨g2, hcol, hok⟩ := bind_ok_inv hok
    obtain ⟨paths, hpaths, hok⟩ := bind_ok_inv hok
    obtain ⟨out, hpt, hok⟩ := bind_ok_inv hok
    obtain ⟨h1, h2, h3⟩ := processTranscripts_spec minTransLen edb paths
      0 st.numTranscripts st.outputs st.excluded out hpt
    simp only [Nat.zero_add] at h1
    simp only [Except.ok.injEq] at hok
    subst hok
    refine ⟨hg, g2, paths, hcol, hpaths, ?_, h2, h3, by rw [h1]⟩
    rw [h1]
    by_cases hz : paths.countP (passesFilter minTransLen edb) = 0
    · rw [if_pos hz, if_pos hz]
      show st.geneId + 1 - 1 = st.geneId
      omega
    · rw [if_neg hz, if_neg hz]

/-- Witness for the gene accounting theorem: on a concrete one-intron locus
whose single transcript (length 800 > 300) passes, the gene id is consumed
and the accounting holds. -/
theorem processLocus_gene_accounting_witness :
    GeneAccounting 50 100 300 wEdb wIdb wCls wBigC {} 
      { removed := [some 0], numTranscripts := 1, geneId := 1,
        transId := some 1, outputs := [["chr1:0-400", "chr1:500-900"]],
        excluded := 0 } (some 0) :=
  processLocus_gene_accounting 50 100 300 wEdb wIdb wCls wBigC {} _ (some 0)
    (by decide) (by decide)

/-- C5 counterexample: a locus whose cluster has an empty intron graph gives
an empty gene graph, and processing it as the *first* locus is an error
(the `if transId == 0` check reads the yet-unbound local `transId`) — the
claim's "an empty locus graph is not an error" fails. -/
theorem buildGeneModels_empty_locus_crashes :
    buildGeneModelsF 10 100 300 [] [] [(1, NxDiGraph.empty)] ⟨[some 1], []⟩ =
      .error .crash := by
  decide

theorem mem_insertU {α : Type} [DecidableEq α] {x y : α} {l : List α} :
    x ∈ insertU y l ↔ x = y ∨ x ∈ l := by
  by_cases h : y ∈ l
  · simp only [insertU, if_pos h]
    constructor
    · exact Or.inr
    · rintro (rfl | hx)
      exacts [h, hx]
  · simp [insertU, if_neg h, or_comm]

theorem NxDiGraph.mem_nodes_addEdge {α : Type} [DecidableEq α]
    {g : NxDiGraph α} {a b x : α} :
    x ∈ (g.addEdge a b).nodes ↔ x ∈ g.nodes ∨ x = a ∨ x = b := by
  simp only [NxDiGraph.addEdge, mem_insertU]
  tauto

theorem NxDiGraph.mem_edges_addEdge {α : Type} [DecidableEq α]
    {g : NxDiGraph α} {a b : α} {e : α × α} :
    e ∈ (g.addEdge a b).edges ↔ e ∈ g.edges ∨ e = (a, b) := by
  simp only [NxDiGraph.addEdge, mem_insertU]
  tauto

theorem NxDiGraph.mem_nodes_addEdgesFrom {α : Type} [DecidableEq α]
    {es : List (α × α)} :
    ∀ {g : NxDiGraph α} {x : α},
      x ∈ (g.addEdgesFrom es).nodes ↔
        x ∈ g.nodes ∨ ∃ e ∈ es, x = e.1 ∨ x = e.2 := by
  induction es with
  | nil => intro g x; simp [NxDiGraph.addEdgesFrom]
  | cons e es ih =>
    intro g x
    show x ∈ ((g.addEdge e.1 e.2).addEdgesFrom es).nodes ↔ _
    rw [ih, NxDiGraph.mem_nodes_addEdge]
    simp only [List.mem_cons]
    constructor
    · rintro ((h | h | h) | ⟨e', he', h⟩)
      · exact Or.inl h
      · exact Or.inr ⟨e, Or.inl rfl, Or.inl h⟩
      · exact Or.inr ⟨e, Or.inl rfl, Or.inr h⟩
      · exact Or.inr ⟨e', Or.inr he', h⟩
    · rintro (h | ⟨e', (rfl | he'), h⟩)
      · exact Or.inl (Or.inl h)
      · exact Or.inl (Or.inr h)
      · exact Or.inr ⟨e', he', h⟩

theorem NxDiGraph.mem_edges_addEdgesFrom {α : Type} [DecidableEq α]
    {es : List (α × α)} :
    ∀ {g : NxDiGraph α} {e : α × α},
      e ∈ (g.addEdgesFrom es).edges ↔ e ∈ g.edges ∨ e ∈ es := by
  induction es with
  | nil => intro g e; simp [NxDiGraph.addEdgesFrom]
  | cons e' es ih =>
    intro g e
    show e ∈ ((g.addEdge e'.1 e'.2).addEdgesFrom es).edges ↔ _
    rw [ih, NxDiGraph.mem_edges_addEdge]
    simp only [List.mem_cons]
    constructor
    · rintro ((h | h) | h)
      · exact Or.inl h
      · exact Or.inr (Or.inl (by rw [h]))
      · exact Or.inr (Or.inr h)
    · rintro (h | h | h)
      · exact Or.inl (Or.inl h)
      · exact Or.inl (Or.inr (by rw [h]))
      · exact Or.inr h

theorem NxDiGraph.mem_nodes_removeNode {α : Type} [DecidableEq α]
    {g : NxDiGraph α} {y x : α} :
    x ∈ (g.removeNode y).nodes ↔ x ∈ g.nodes ∧ x ≠ y := by
  simp [NxDiGraph.removeNode, List.mem_filter]

theorem NxDiGraph.mem_edges_removeNode {α : Type} [DecidableEq α]
    {g : NxDiGraph α} {y : α} {e : α × α} :
    e ∈ (g.removeNode y).edges ↔ e ∈ g.edges ∧ e.1 ≠ y ∧ e.2 ≠ y := by
  simp [NxDiGraph.removeNode, List.mem_filter]

theorem NxDiGraph.mem_successors {α : Type} [DecidableEq α]
    {g : NxDiGraph α} {x n : α} :
    n ∈ g.successors x ↔ (x, n) ∈ g.edges := by
  simp only [NxDiGraph.successors, List.mem_map, List.mem_filter,
    decide_eq_true_eq]
  constructor
  · rintro ⟨⟨a, b⟩, ⟨hmem, rfl⟩, rfl⟩
    exact hmem
  · intro h
    exact ⟨(x, n), ⟨h, rfl⟩, rfl⟩

theorem NxDiGraph.WF_addEdge {α : Type} [DecidableEq α]
    {g : NxDiGraph α} {a b : α} (h : g.WF) : (g.addEdge a b).WF := by
  intro e he
  rw [NxDiGraph.mem_edges_addEdge] at he
  rcases he with he | rfl
  · obtain ⟨h1, h2⟩ := h e he
    exact ⟨NxDiGraph.mem_nodes_addEdge.2 (Or.inl h1),
           NxDiGraph.mem_nodes_addEdge.2 (Or.inl h2)⟩
  · exact ⟨NxDiGraph.mem_nodes_addEdge.2 (Or.inr (Or.inl rfl)),
           NxDiGraph.mem_nodes_addEdge.2 (Or.inr (Or.inr rfl))⟩

theorem NxDiGraph.WF_addEdgesFrom {α : Type} [DecidableEq α]
    {es : List (α × α)} :
    ∀ {g : NxDiGraph α}, g.WF → (g.addEdgesFrom es).WF := by
  induction es with
  | nil => intro g h; exact h
  | cons e es ih =>
    intro g h
    exact ih (NxDiGraph.WF_addEdge h)

theorem NxDiGraph.WF_removeNode {α : Type} [DecidableEq α]
    {g : NxDiGraph α} {y : α} (h : g.WF) : (g.removeNode y).WF := by
  intro e he
  rw [NxDiGraph.mem_edges_removeNode] at he
  obtain ⟨hmem, h1, h2⟩ := he
  obtain ⟨n1, n2⟩ := h e hmem
  exact ⟨NxDiGraph.mem_nodes_removeNode.2 ⟨n1, h1⟩,
         NxDiGraph.mem_nodes_removeNode.2 ⟨n2, h2⟩⟩

theorem WF_reattachSuccessors {g : NxDiGraph String} {keepK dropK : String}
    (h : g.WF) : (reattachSuccessors g keepK dropK).WF :=
  NxDiGraph.WF_removeNode (NxDiGraph.WF_addEdgesFrom h)

theorem not_mem_reattachSuccessors {g : NxDiGraph String} {keepK dropK x : String}
    (hwf : g.WF) (hx : x ∉ g.nodes) (hkeep : keepK ≠ x) :
    x ∉ (reattachSuccessors g keepK dropK).nodes := by
  intro hmem
  rw [reattachSuccessors, NxDiGraph.mem_nodes_removeNode,
    NxDiGraph.mem_nodes_addEdgesFrom] at hmem
  obtain ⟨h1 | ⟨e, he, h1⟩, _⟩ := hmem
  · exact hx h1
  · obtain ⟨n, hn, rfl⟩ := List.mem_map.1 he
    rcases h1 with h1 | h1
    · exact hkeep h1.symm
    · subst h1
      exact hx ((hwf _ (NxDiGraph.mem_successors.1 hn)).2)

theorem collapsePass1_keeps_removed (minUTR : Int) :
    ∀ (rest : List ExonObj) (g : NxDiGraph String) (curr : ExonObj) (x : String),
      g.WF → x ∉ g.nodes → exonStr curr ≠ x → (∀ e ∈ rest, exonStr e ≠ x) →
      x ∉ (collapsePass1 minUTR g curr rest).nodes := by
  intro rest
  induction rest with
  | nil =>
    intro g curr x _ hx _ _
    simpa [collapsePass1] using hx
  | cons next rest ih =>
    intro g curr x hwf hx hcurr hrest
    have hnext : exonStr next ≠ x := hrest next (by simp)
    have hrest' : ∀ e ∈ rest, exonStr e ≠ x := fun e he => hrest e (by simp [he])
    rw [collapsePass1]
    split
    · split
      · exact ih _ curr x (WF_reattachSuccessors hwf)
          (not_mem_reattachSuccessors hwf hx hcurr) hcurr hrest'
      · split
        · exact ih _ next x (WF_reattachSuccessors hwf)
            (not_mem_reattachSuccessors hwf hx hnext) hnext hrest'
        · exact ih g next x hwf hx hnext hrest'
    · exact ih g next x hwf hx hnext hrest'

/-- C6 amended: in `collapseExons` pass 1, when the scan compares two exons
that share the same `end` and the later one is LEFT-terminal
(`terminal == 1`; the source checks `nextExon.terminal == 1`, not the
right-terminal flag `2`), the later exon is spliced out: every successor
edge it has at that moment is reattached to the compared (earlier) exon,
its node is removed, and — as long as no later scan entry reuses its key —
it never reappears in the pass 1 result. -/
theorem collapsePass1_splices_left_terminal (minUTR : Int)
    (g : NxDiGraph String) (curr next : ExonObj) (rest : List ExonObj)
    (hwf : g.WF) (hstop : curr.stop = next.stop) (hterm : next.terminal = some 1)
    (hne : exonStr curr ≠ exonStr next)
    (hrest : ∀ e ∈ rest, exonStr e ≠ exonStr next) :
    collapsePass1 minUTR g curr (next :: rest) =
      collapsePass1 minUTR (reattachSuccessors g (exonStr curr) (exonStr next))
        curr rest ∧
    exonStr next ∉ (reattachSuccessors g (exonStr curr) (exonStr next)).nodes ∧
    (∀ n, n ∈ g.successors (exonStr next) → n ≠ exonStr next →
      (exonStr curr, n) ∈
        (reattachSuccessors g (exonStr curr) (exonStr next)).edges) ∧
    exonStr next ∉ (collapsePass1 minUTR g curr (next :: rest)).nodes := by
  have heq : collapsePass1 minUTR g curr (next :: rest) =
      collapsePass1 minUTR (reattachSuccessors g (exonStr curr) (exonStr next))
        curr rest := by
    rw [collapsePass1, if_pos hstop, if_pos hterm]
  have h2 : exonStr next ∉
      (reattachSuccessors g (exonStr curr) (exonStr next)).nodes := by
    rw [reattachSuccessors, NxDiGraph.mem_nodes_removeNode]
    rintro ⟨_, h⟩
    exact h rfl
  refine ⟨heq, h2, ?_, ?_⟩
  · intro n hn hnn
    rw [reattachSuccessors, NxDiGraph.mem_edges_removeNode,
      NxDiGraph.mem_edges_addEdgesFrom]
    exact ⟨Or.inr (List.mem_map.2 ⟨n, hn, rfl⟩), hne, hnn⟩
  · rw [heq]
    exact collapsePass1_keeps_removed minUTR rest _ curr (exonStr next)
      (WF_reattachSuccessors hwf) h2 hne hrest

/-- Witness for the pass-1 splice theorem at a concrete scan state. -/
theorem collapsePass1_splices_left_terminal_witness :
    collapsePass1 100 c6wG c6wCurr (c6wNext :: c6wRest) =
      collapsePass1 100
        (reattachSuccessors c6wG (exonStr c6wCurr) (exonStr c6wNext))
        c6wCurr c6wRest ∧
    exonStr c6wNext ∉
      (reattachSuccessors c6wG (exonStr c6wCurr) (exonStr c6wNext)).nodes ∧
    (∀ n, n ∈ c6wG.successors (exonStr c6wNext) → n ≠ exonStr c6wNext →
      (exonStr c6wCurr, n) ∈
        (reattachSuccessors c6wG (exonStr c6wCurr) (exonStr c6wNext)).edges) ∧
    exonStr c6wNext ∉ (collapsePass1 100 c6wG c6wCurr (c6wNext :: c6wRest)).nodes :=
  collapsePass1_splices_left_terminal 100 c6wG c6wCurr c6wNext c6wRest
    (by decide) (by decide) (by decide) (by decide) (by decide)

/-- C6 counterexample: with the later exon RIGHT-terminal (flag `2`, the
claim's wording), `collapseExons` leaves the graph unchanged — the later
exon is not spliced out and no successor edge is reattached (the code tests
`terminal == 1`, the LEFT-terminal flag, in pass 1). -/
theorem collapseExons_pass1_ignores_right_terminal :
    collapseExonsF 100 c6cDb c6cG = .ok c6cG ∧
    "chr1:50-100" ∈ c6cG.nodes ∧
    ("chr1:0-100", "chr1:200-300") ∉ c6cG.edges := by
  refine ⟨by decide, by decide, by decide⟩

theorem lookupA_insertA_self {κ ν : Type} [DecidableEq κ] :
    ∀ (l : List (κ × ν)) (k : κ) (v : ν), lookupA (insertA l k v) k = some v := by
  intro l
  induction l with
  | nil => intro k v; simp [insertA, lookupA]
  | cons p t ih =>
    rcases p with ⟨pk, pv⟩
    intro k v
    by_cases h : pk = k
    · subst h
      simp [insertA, lookupA]
    · simp only [insertA, if_neg h, lookupA]
      exact ih k v

theorem lookupA_insertA_ne {κ ν : Type} [DecidableEq κ] :
    ∀ (l : List (κ × ν)) (k k' : κ) (v : ν), k' ≠ k →
      lookupA (insertA l k v) k' = lookupA l k' := by
  intro l
  induction l with
  | nil =>
    intro k k' v h
    simp [insertA, lookupA, Ne.symm h]
  | cons p t ih =>
    rcases p with ⟨pk, pv⟩
    intro k k' v h
    by_cases hp : pk = k
    · subst hp
      simp [insertA, lookupA, Ne.symm h]
    · simp only [insertA, if_neg hp, lookupA]
      rw [ih k k' v h]

theorem mapEntry_cons {κ ν : Type} [DecidableEq κ]
    (pk : κ) (pv : ν) (t : List (κ × ν)) (k : κ) (f : ν → ν) :
    mapEntry ((pk, pv) :: t) k f =
      (if pk = k then (pk, f pv) else (pk, pv)) :: mapEntry t k f := by
  by_cases h : pk = k <;> simp [mapEntry, h]

theorem lookupA_mapEntry_self {κ ν : Type} [DecidableEq κ] :
    ∀ (l : List (κ × ν)) (k : κ) (f : ν → ν),
      lookupA (mapEntry l k f) k = (lookupA l k).map f := by
  intro l
  induction l with
  | nil => intro k f; simp [mapEntry, lookupA]
  | cons p t ih =>
    rcases p with ⟨pk, pv⟩
    intro k f
    rw [mapEntry_cons]
    by_cases h : pk = k
    · subst h
      rw [if_pos rfl]
      simp [lookupA]
    · rw [if_neg h]
      simp only [lookupA, if_neg h]
      exact ih k f

theorem lookupA_mapEntry_ne {κ ν : Type} [DecidableEq κ] :
    ∀ (l : List (κ × ν)) (k k' : κ) (f : ν → ν), k' ≠ k →
      lookupA (mapEntry l k f) k' = lookupA l k' := by
  intro l
  induction l with
  | nil => intro k k' f _; simp [mapEntry, lookupA]
  | cons p t ih =>
    rcases p with ⟨pk, pv⟩
    intro k k' f h
    rw [mapEntry_cons]
    by_cases hp : pk = k
    · subst hp
      rw [if_pos rfl]
      simp only [lookupA, if_neg (Ne.symm h)]
      exact ih pk k' f h
    · rw [if_neg hp]
      simp only [lookupA]
      by_cases hp' : pk = k'
      · rw [if_pos hp', if_pos hp']
      · rw [if_neg hp', if_neg hp']
        exact ih k k' f h

theorem keys_mapEntry {κ ν : Type} [DecidableEq κ]
    (l : List (κ × ν)) (k : κ) (f : ν → ν) :
    (mapEntry l k f).map Prod.fst = l.map Prod.fst := by
  induction l with
  | nil => rfl
  | cons p t ih =>
    rcases p with ⟨pk, pv⟩
    by_cases h : pk = k <;>
      simp only [mapEntry, List.map_cons, if_pos, if_neg, h] <;>
      simp only [mapEntry] at ih <;> simp [ih]

theorem lookupA_isSome_iff {κ ν : Type} [DecidableEq κ] :
    ∀ (l : List (κ × ν)) (k : κ),
      (lookupA l k).isSome ↔ k ∈ l.map Prod.fst := by
  intro l
  induction l with
  | nil => intro k; simp [lookupA]
  | cons p t ih =>
    rcases p with ⟨pk, pv⟩
    intro k
    by_cases h : pk = k
    · subst h
      simp [lookupA]
    · simp [lookupA, h, ih, Ne.symm h]

theorem countP_key_eq_zero {κ ν : Type} [DecidableEq κ]
    (l : List (κ × ν)) (c : κ) (h : c ∉ l.map Prod.fst) :
    l.countP (fun p => decide (p.1 = c)) = 0 := by
  induction l with
  | nil => rfl
  | cons p t ih =>
    rcases p with ⟨pk, pv⟩
    simp only [List.map_cons, List.mem_cons] at h
    push_neg at h
    rw [List.countP_cons, ih h.2]
    simp [Ne.symm h.1]

theorem countP_key_eq_one {κ ν : Type} [DecidableEq κ] :
    ∀ (l : List (κ × ν)) (c : κ), nodupKeys l → (lookupA l c).isSome →
      l.countP (fun p => decide (p.1 = c)) = 1 := by
  intro l
  induction l with
  | nil => intro c _ hmem; simp [lookupA] at hmem
  | cons p t ih =>
    rcases p with ⟨pk, pv⟩
    intro c hnodup hmem
    rw [nodupKeys, List.map_cons, List.nodup_cons] at hnodup
    by_cases h : pk = c
    · rw [List.countP_cons]
      have hz : t.countP (fun p => decide (p.1 = c)) = 0 :=
        countP_key_eq_zero t c (h ▸ hnodup.1)
      simp [hz, h]
    · rw [List.countP_cons]
      have hm : (lookupA t c).isSome := by
        simpa [lookupA, h] using hmem
      simp [h, ih c hnodup.2 hm]

theorem keys_insertA {κ ν : Type} [DecidableEq κ] :
    ∀ (l : List (κ × ν)) (k : κ) (v : ν),
      (insertA l k v).map Prod.fst =
        if k ∈ l.map Prod.fst then l.map Prod.fst else l.map Prod.fst ++ [k] := by
  intro l
  induction l with
  | nil => intro k v; simp [insertA]
  | cons p t ih =>
    rcases p with ⟨pk, pv⟩
    intro k v
    by_cases h : pk = k
    · subst h
      simp [insertA]
    · simp only [insertA, if_neg h, List.map_cons, ih]
      by_cases hm : k ∈ t.map Prod.fst <;>
        simp [hm, Ne.symm h, List.mem_cons]

theorem nodupKeys_insertA {κ ν : Type} [DecidableEq κ]
    (l : List (κ × ν)) (k : κ) (v : ν) (h : nodupKeys l) :
    nodupKeys (insertA l k v) := by
  rw [nodupKeys, keys_insertA]
  by_cases hm : k ∈ l.map Prod.fst
  · rw [if_pos hm]; exact h
  · rw [if_neg hm, List.nodup_append]
    refine ⟨h, List.nodup_singleton k, ?_⟩
    intro a ha hak
    simp only [List.mem_singleton] at hak
    subst hak
    exact hm ha

theorem nodupKeys_mapEntry {κ ν : Type} [DecidableEq κ]
    (l : List (κ × ν)) (k : κ) (f : ν → ν) (h : nodupKeys l) :
    nodupKeys (mapEntry l k f) := by
  rw [nodupKeys, keys_mapEntry]
  exact h

theorem lookupA_mem {κ ν : Type} [DecidableEq κ] :
    ∀ (l : List (κ × ν)) (k : κ) (v : ν), lookupA l k = some v → (k, v) ∈ l := by
  intro l
  induction l with
  | nil => intro k v h; simp [lookupA] at h
  | cons p t ih =>
    rcases p with ⟨pk, pv⟩
    intro k v h
    by_cases hp : pk = k
    · subst hp
      simp [lookupA] at h
      subst h
      exact List.mem_cons_self _ _
    · simp only [lookupA, if_neg hp] at h
      exact List.mem_cons_of_mem _ (ih k v h)

theorem addExonStep_lookup_ne (db : ExonDb) (e : ExonObj) (k : String)
    (h : k ≠ exonStr e) :
    lookupA (addExonStep db e) k = lookupA db k := by
  cases hl : lookupA db (exonStr e) with
  | none =>
    simp only [addExonStep, hl]
    exact lookupA_insertA_ne db (exonStr e) k e h
  | some e_ =>
    simp only [addExonStep, hl]
    split
    · exact lookupA_mapEntry_ne db (exonStr e) k _ h
    · rfl

theorem addExonStep_insert (db : ExonDb) (e : ExonObj)
    (hl : lookupA db (exonStr e) = none) :
    addExonStep db e = insertA db (exonStr e) e := by
  simp [addExonStep, hl]

theorem addExonStep_no_clear (db : ExonDb) (e : ExonObj) (e_ : ExonObj)
    (hl : lookupA db (exonStr e) = some e_)
    (hfalse : optTruthy e_.terminal = false) :
    addExonStep db e = db := by
  simp [addExonStep, hl, hfalse]

theorem addExonStep_incoming_truthy (db : ExonDb) (e : ExonObj) (e_ : ExonObj)
    (hl : lookupA db (exonStr e) = some e_)
    (htr : optTruthy e.terminal = true) :
    addExonStep db e = db := by
  simp [addExonStep, hl, htr]

theorem addExonStep_clear (db : ExonDb) (e : ExonObj) (e_ : ExonObj)
    (hl : lookupA db (exonStr e) = some e_)
    (he : optTruthy e.terminal = false) (htr : optTruthy e_.terminal = true) :
    addExonStep db e =
      mapEntry db (exonStr e) (fun x => { x with terminal := none }) := by
  simp [addExonStep, hl, he, htr]

theorem foldl_addExonStep_stable :
    ∀ (exs : List ExonObj) (db : ExonDb) (c : String) (e_ : ExonObj),
      lookupA db c = some e_ → e_.terminal = none →
      lookupA (exs.foldl addExonStep db) c = some e_ := by
  intro exs
  induction exs with
  | nil => intro db c e_ hl _; exact hl
  | cons x exs ih =>
    intro db c e_ hl hnone
    rw [List.foldl_cons]
    by_cases hx : exonStr x = c
    · subst hx
      rw [addExonStep_no_clear db x e_ hl (by simp [hnone, optTruthy])]
      exact ih db (exonStr x) e_ hl hnone
    · refine ih _ c e_ ?_ hnone
      rw [addExonStep_lookup_ne db x c (fun hh => hx hh.symm)]
      exact hl

theorem foldl_addExonStep_flagOK :
    ∀ (exs : List ExonObj) (db : ExonDb) (c : String),
      (∀ e_, lookupA db c = some e_ → flagOK e_.terminal) →
      (∀ x ∈ exs, exonStr x = c → flagOK x.terminal) →
      (∀ e_, lookupA (exs.foldl addExonStep db) c = some e_ → flagOK e_.terminal) := by
  intro exs
  induction exs with
  | nil => intro db c hdb _; exact hdb
  | cons x exs ih =>
    intro db c hdb hall
    rw [List.foldl_cons]
    refine ih _ c ?_ (fun y hy => hall y (List.mem_cons_of_mem _ hy))
    intro e_ hl
    by_cases hx : exonStr x = c
    · subst hx
      cases hl0 : lookupA db (exonStr x) with
      | none =>
        rw [addExonStep_insert db x hl0, lookupA_insertA_self] at hl
        obtain rfl := Option.some.inj hl
        exact hall x (List.mem_cons_self _ _) rfl
      | some e0 =>
        by_cases htr : optTruthy e0.terminal = true
        · by_cases hin : optTruthy x.terminal = true
          · rw [addExonStep_incoming_truthy db x e0 hl0 hin, hl0] at hl
            obtain rfl := Option.some.inj hl
            exact hdb _ hl0
          · rw [addExonStep_clear db x e0 hl0 (by simpa using hin) htr,
              lookupA_mapEntry_self, hl0] at hl
            obtain rfl := Option.some.inj hl
            exact Or.inl rfl
        · rw [addExonStep_no_clear db x e0 hl0 (by simpa using htr), hl0] at hl
          obtain rfl := Option.some.inj hl
          exact hdb _ hl0
    · rw [addExonStep_lookup_ne db x c (fun hh => hx hh.symm)] at hl
      exact hdb e_ hl

theorem foldl_addExonStep_clears :
    ∀ (exs : List ExonObj) (db : ExonDb) (c : String),
      (∀ e_, lookupA db c = some e_ → flagOK e_.terminal) →
      (∀ x ∈ exs, exonStr x = c → x.terminal = none) →
      (∃ x, x ∈ exs ∧ exonStr x = c) →
      ∃ e', lookupA (exs.foldl addExonStep db) c = some e' ∧
        e'.terminal = none := by
  intro exs
  induction exs with
  | nil => rintro db c _ _ ⟨x, hx, _⟩; cases hx
  | cons x exs ih =>
    intro db c hdb hall hw
    rw [List.foldl_cons]
    by_cases hx : exonStr x = c
    · subst hx
      have hxnone : x.terminal = none := hall x (List.mem_cons_self _ _) rfl
      cases hl0 : lookupA db (exonStr x) with
      | none =>
        rw [addExonStep_insert db x hl0]
        exact ⟨x, foldl_addExonStep_stable exs _ _ x (lookupA_insertA_self db _ x)
          hxnone, hxnone⟩
      | some e0 =>
        rcases hdb e0 hl0 with h0 | h0 | h0
        · rw [addExonStep_no_clear db x e0 hl0 (by simp [h0, optTruthy])]
          exact ⟨e0, foldl_addExonStep_stable exs db _ e0 hl0 h0, h0⟩
        · rw [addExonStep_clear db x e0 hl0 (by simp [hxnone, optTruthy])
            (by simp [h0, optTruthy])]
          refine ⟨{ e0 with terminal := none }, ?_, rfl⟩
          refine foldl_addExonStep_stable exs _ _ _ ?_ rfl
          rw [lookupA_mapEntry_self, hl0]
          rfl
        · rw [addExonStep_clear db x e0 hl0 (by simp [hxnone, optTruthy])
            (by simp [h0, optTruthy])]
          refine ⟨{ e0 with terminal := none }, ?_, rfl⟩
          refine foldl_addExonStep_stable exs _ _ _ ?_ rfl
          rw [lookupA_mapEntry_self, hl0]
          rfl
    · rcases hw with ⟨y, hy, hyc⟩
      have hy' : y ∈ exs := by
        rcases List.mem_cons.1 hy with rfl | hy'
        · exact absurd hyc hx
        · exact hy'
      refine ih _ c ?_ (fun z hz => hall z (List.mem_cons_of_mem _ hz)) ⟨y, hy', hyc⟩
      intro e_ hl
      rw [addExonStep_lookup_ne db x c (fun hh => hx hh.symm)] at hl
      exact hdb e_ hl

theorem map_exonStr_setLastTerminal :
    ∀ l : List ExonObj, (setLastTerminal l).map exonStr = l.map exonStr := by
  intro l
  induction l with
  | nil => rfl
  | cons x xs ih =>
    cases xs with
    | nil => rfl
    | cons x2 xs2 =>
      rw [show setLastTerminal (x :: x2 :: xs2) = x :: setLastTerminal (x2 :: xs2)
        from rfl, List.map_cons, List.map_cons, ih]

theorem map_exonStr_setTerminals (l : List ExonObj) :
    (setTerminals l).map exonStr = l.map exonStr := by
  cases l with
  | nil => rfl
  | cons x rest =>
    rw [setTerminals, map_exonStr_setLastTerminal, List.map_cons, List.map_cons]
    rfl

theorem mem_setLastTerminal :
    ∀ (l : List ExonObj) (y : ExonObj), y ∈ setLastTerminal l →
      (∃ z, l.getLast? = some z ∧ y = { z with terminal := some 2 }) ∨ y ∈ l := by
  intro l
  induction l with
  | nil => intro y h; cases h
  | cons x xs ih =>
    cases xs with
    | nil =>
      intro y h
      rcases List.mem_singleton.1 h with rfl
      exact Or.inl ⟨x, rfl, rfl⟩
    | cons x2 xs2 =>
      intro y h
      rw [show setLastTerminal (x :: x2 :: xs2) = x :: setLastTerminal (x2 :: xs2)
        from rfl] at h
      rcases List.mem_cons.1 h with rfl | h2
      · exact Or.inr (List.mem_cons_self _ _)
      · rcases ih y h2 with ⟨z, hz, hy⟩ | hy
        · exact Or.inl ⟨z, by rw [List.getLast?_cons_cons]; exact hz, hy⟩
        · exact Or.inr (List.mem_cons_of_mem _ hy)

theorem mem_setTerminals (l : List ExonObj) (y : ExonObj)
    (h : y ∈ setTerminals l) :
    (∃ z, l.getLast? = some z ∧ exonStr y = exonStr z ∧ y.terminal = some 2) ∨
    (∃ z, l.head? = some z ∧ exonStr y = exonStr z ∧ y.terminal = some 1) ∨
    y ∈ l := by
  cases l with
  | nil => cases h
  | cons x rest =>
    rw [setTerminals] at h
    rcases mem_setLastTerminal _ y h with ⟨z, hz, rfl⟩ | hy
    · left
      cases rest with
      | nil =>
        simp only [List.getLast?_singleton, Option.some.injEq] at hz
        subst hz
        exact ⟨x, by simp, rfl, rfl⟩
      | cons r2 rs =>
        rw [List.getLast?_cons_cons] at hz
        exact ⟨z, by rw [List.getLast?_cons_cons]; exact hz, rfl, rfl⟩
    · rcases List.mem_cons.1 hy with rfl | hy2
      · exact Or.inr (Or.inl ⟨x, rfl, rfl, rfl⟩)
      · exact Or.inr (Or.inr (List.mem_cons_of_mem _ hy2))

theorem setTerminals_flagOK (l : List ExonObj)
    (hall : ∀ x ∈ l, x.terminal = none) :
    ∀ y ∈ setTerminals l, flagOK y.terminal := by
  intro y hy
  rcases mem_setTerminals l y hy with ⟨_, _, _, h2⟩ | ⟨_, _, _, h1⟩ | hy'
  · exact Or.inr (Or.inr h2)
  · exact Or.inr (Or.inl h1)
  · exact Or.inl (hall y hy')

theorem setTerminals_internal_none (l : List ExonObj) (c : String)
    (hall : ∀ x ∈ l, x.terminal = none)
    (hhead : ∀ z, l.head? = some z → exonStr z ≠ c)
    (hlast : ∀ z, l.getLast? = some z → exonStr z ≠ c) :
    ∀ y ∈ setTerminals l, exonStr y = c → y.terminal = none := by
  intro y hy hyc
  rcases mem_setTerminals l y hy with ⟨z, hz, hes, _⟩ | ⟨z, hz, hes, _⟩ | hy'
  · exact absurd (hes.symm.trans hyc) (hlast z hz)
  · exact absurd (hes.symm.trans hyc) (hhead z hz)
  · exact hall y hy'

theorem exists_key_setTerminals (l : List ExonObj) (c : String)
    (h : c ∈ l.map exonStr) : ∃ x, x ∈ setTerminals l ∧ exonStr x = c := by
  rw [← map_exonStr_setTerminals] at h
  obtain ⟨x, hx, hxc⟩ := List.mem_map.1 h
  exact ⟨x, hx, hxc⟩

theorem nodupKeys_addExonStep (db : ExonDb) (e : ExonObj)
    (h : nodupKeys db) : nodupKeys (addExonStep db e) := by
  cases hl : lookupA db (exonStr e) with
  | none =>
    rw [addExonStep_insert db e hl]
    exact nodupKeys_insertA db _ e h
  | some e0 =>
    simp only [addExonStep, hl]
    split
    · exact nodupKeys_mapEntry db _ _ h
    · exact h

theorem nodupKeys_foldl_addExonStep :
    ∀ (exs : List ExonObj) (db : ExonDb), nodupKeys db →
      nodupKeys (exs.foldl addExonStep db) := by
  intro exs
  induction exs with
  | nil => intro db h; exact h
  | cons x exs ih =>
    intro db h
    exact ih _ (nodupKeys_addExonStep db x h)

/-- C7 (registry identity): registering two alignments that both contain an
exon with coordinates `c` — internally in one and terminally in the other,
in either order — leaves exactly one registry entry for `c`, and its
terminal flag is `none`.  The prior registry may be arbitrary as long as its
keys are distinct and its flags are the values the program stores; the
alignments enter `addExon` with all flags unset, as `parsePSL` builds
them. -/
theorem addExon_merges_duplicate_exon (db : ExonDb) (a b : List ExonObj)
    (c : String)
    (hnodup : nodupKeys db)
    (hflags : ∀ p ∈ db, flagOK p.2.terminal)
    (haflags : ∀ x ∈ a, x.terminal = none)
    (hbflags : ∀ x ∈ b, x.terminal = none)
    (hcase : (InternalIn c a ∧ TerminalIn c b) ∨
             (TerminalIn c a ∧ InternalIn c b)) :
    (addExon (addExon db a) b).countP (fun p => decide (p.1 = c)) = 1 ∧
    ∃ e, lookupA (addExon (addExon db a) b) c = some e ∧ e.terminal = none := by
  have hlocal : ∀ e_, lookupA db c = some e_ → flagOK e_.terminal :=
    fun e_ hl => hflags (c, e_) (lookupA_mem db c e_ hl)
  have hfinal : ∃ e, lookupA (addExon (addExon db a) b) c = some e ∧
      e.terminal = none := by
    rcases hcase with ⟨hint, _⟩ | ⟨_, hint⟩
    · obtain ⟨e1, hl1, hn1⟩ := foldl_addExonStep_clears (setTerminals a) db c
        hlocal
        (setTerminals_internal_none a c haflags hint.2.1 hint.2.2)
        (exists_key_setTerminals a c hint.1)
      exact ⟨e1, foldl_addExonStep_stable (setTerminals b) (addExon db a) c e1
        hl1 hn1, hn1⟩
    · have hlocal1 : ∀ e_, lookupA (addExon db a) c = some e_ →
          flagOK e_.terminal :=
        foldl_addExonStep_flagOK (setTerminals a) db c hlocal
          (fun x hx _ => setTerminals_flagOK a haflags x hx)
      exact foldl_addExonStep_clears (setTerminals b) (addExon db a) c hlocal1
        (setTerminals_internal_none b c hbflags hint.2.1 hint.2.2)
        (exists_key_setTerminals b c hint.1)
  obtain ⟨e, he, hn⟩ := hfinal
  have hnodup2 : nodupKeys (addExon (addExon db a) b) :=
    nodupKeys_foldl_addExonStep (setTerminals b) _
      (nodupKeys_foldl_addExonStep (setTerminals a) db hnodup)
  refine ⟨countP_key_eq_one _ c hnodup2 ?_, e, he, hn⟩
  rw [he]
  rfl

/-- Witness for C7: registering the internal occurrence then the terminal
one leaves one entry for `chr1:200-300` with terminal flag `none`. -/
theorem addExon_merges_duplicate_exon_witness :
    (addExon (addExon [] c7a) c7b).countP
      (fun p => decide (p.1 = "chr1:200-300")) = 1 ∧
    ∃ e, lookupA (addExon (addExon [] c7a) c7b) "chr1:200-300" = some e ∧
      e.terminal = none :=
  addExon_merges_duplicate_exon [] c7a c7b "chr1:200-300"
    (by simp [nodupKeys])
    (by intro p hp; cases hp)
    (by decide)
    (by decide)
    (Or.inl ⟨⟨by decide,
      fun z hz => by
        obtain rfl := Option.some.inj hz
        decide,
      fun z hz => by
        obtain rfl := Option.some.inj hz
        decide⟩,
      Or.inl ⟨mkExonObj "chr1" 200 300, rfl, by decide⟩⟩)

theorem EdbStep_refl (d : ExonDb) : EdbStep d d :=
  ⟨id, fun _ e h => ⟨e, h, rfl, rfl, rfl⟩⟩

theorem EdbStep_trans {d1 d2 d3 : ExonDb} (h12 : EdbStep d1 d2)
    (h23 : EdbStep d2 d3) : EdbStep d1 d3 := by
  refine ⟨fun h => h23.1 (h12.1 h), fun k e h => ?_⟩
  obtain ⟨e', h', hc, hs, hp⟩ := h12.2 k e h
  obtain ⟨e'', h'', hc', hs', hp'⟩ := h23.2 k e' h'
  exact ⟨e'', h'', hc'.trans hc, hs'.trans hs, hp'.trans hp⟩

theorem exonStr_congr {x y : ExonObj} (hc : x.chrom = y.chrom)
    (hs : x.start = y.start) (hp : x.stop = y.stop) : exonStr x = exonStr y := by
  unfold exonStr
  rw [hc, hs, hp]

theorem EdbStep_mapEntry (d : ExonDb) (k' : String) (f : ExonObj → ExonObj)
    (hf : ∀ x, (f x).chrom = x.chrom ∧ (f x).start = x.start ∧
      (f x).stop = x.stop) : EdbStep d (mapEntry d k' f) := by
  constructor
  · intro h p hp
    obtain ⟨q, hq, hpq⟩ := List.mem_map.1 hp
    by_cases hk : q.1 = k'
    · rw [if_pos hk] at hpq
      subst hpq
      obtain ⟨h1, h2, h3⟩ := hf q.2
      exact (exonStr_congr h1 h2 h3).trans (h q hq)
    · rw [if_neg hk] at hpq
      subst hpq
      exact h q hq
  · intro k e hl
    by_cases hk : k = k'
    · subst hk
      rw [lookupA_mapEntry_self, hl]
      exact ⟨f e, rfl, (hf e).1, (hf e).2.1, (hf e).2.2⟩
    · rw [lookupA_mapEntry_ne d k' k f hk]
      exact ⟨e, hl, rfl, rfl, rfl⟩

theorem addIntronsLoop_edb (maxIntron : Int) :
    ∀ (exs : List ExonObj) (edb : ExonDb) (idb : IntronDb)
      (names : List String) (existing : List (Option Nat))
      (out : ExonDb × IntronDb × List String × List (Option Nat)),
      addIntronsLoop maxIntron edb idb names existing exs = .ok out →
      EdbStep edb out.1 := by
  intro exs
  induction exs with
  | nil =>
    intro edb idb names existing out hok
    obtain rfl := Except.ok.inj hok
    exact EdbStep_refl edb
  | cons e₁ xs ih =>
    intro edb idb names existing out hok
    cases xs with
    | nil =>
      obtain rfl := Except.ok.inj hok
      exact EdbStep_refl edb
    | cons e₂ rest =>
      rw [addIntronsLoop] at hok
      cases hl1 : lookupA edb (exonStr e₁) with
      | none => rw [hl1] at hok; simp at hok
      | some curr =>
        cases hl2 : lookupA edb (exonStr e₂) with
        | none => rw [hl1, hl2] at hok; simp at hok
        | some next =>
          rw [hl1, hl2] at hok
          simp only at hok
          by_cases hmax : next.start - 1 - (curr.stop + 1) > maxIntron
          · rw [if_pos hmax] at hok
            exact ih edb idb names existing out hok
          · rw [if_neg hmax] at hok
            cases hli : lookupA idb
                (intronStr curr.chrom (curr.stop + 1) (next.start - 1)) with
            | none =>
              rw [hli] at hok
              refine EdbStep_trans (EdbStep_mapEntry _ _ _ ?_)
                (EdbStep_trans (EdbStep_mapEntry _ _ _ ?_)
                  (EdbStep_trans (EdbStep_mapEntry _ _ _ ?_)
                    (ih _ _ _ _ out hok))) <;>
                exact fun x => ⟨rfl, rfl, rfl⟩
            | some intron_ =>
              rw [hli] at hok
              refine EdbStep_trans (EdbStep_mapEntry _ _ _ ?_)
                (EdbStep_trans (EdbStep_mapEntry _ _ _ ?_)
                  (EdbStep_trans (EdbStep_mapEntry _ _ _ ?_)
                    (ih _ _ _ _ out hok))) <;>
                exact fun x => ⟨rfl, rfl, rfl⟩

theorem mem_insertA {κ ν : Type} [DecidableEq κ] :
    ∀ (l : List (κ × ν)) (k : κ) (v : ν) (p : κ × ν),
      p ∈ insertA l k v → p ∈ l ∨ p = (k, v) := by
  intro l
  induction l with
  | nil =>
    intro k v p h
    simp only [insertA] at h
    exact Or.inr (List.mem_singleton.1 h)
  | cons q t ih =>
    rcases q with ⟨qk, qv⟩
    intro k v p h
    by_cases hq : qk = k
    · subst hq
      simp only [insertA, if_pos rfl] at h
      rcases List.mem_cons.1 h with rfl | h2
      · exact Or.inr rfl
      · exact Or.inl (List.mem_cons_of_mem _ h2)
    · simp only [insertA, if_neg hq] at h
      rcases List.mem_cons.1 h with rfl | h2
      · exact Or.inl (List.mem_cons_self _ _)
      · rcases ih k v p h2 with h3 | h3
        · exact Or.inl (List.mem_cons_of_mem _ h3)
        · exact Or.inr h3

theorem EdbStep_addExonStep (db : ExonDb) (e : ExonObj) :
    EdbStep db (addExonStep db e) := by
  cases hl : lookupA db (exonStr e) with
  | none =>
    rw [addExonStep_insert db e hl]
    constructor
    · intro h p hp
      rcases mem_insertA db (exonStr e) e p hp with h2 | rfl
      · exact h p h2
      · rfl
    · intro k e0 hk
      by_cases hke : k = exonStr e
      · subst hke
        rw [hl] at hk
        cases hk
      · rw [lookupA_insertA_ne db (exonStr e) k e hke]
        exact ⟨e0, hk, rfl, rfl, rfl⟩
  | some e0 =>
    simp only [addExonStep, hl]
    split
    · exact EdbStep_mapEntry db (exonStr e) _ (fun x => ⟨rfl, rfl, rfl⟩)
    · exact EdbStep_refl db

theorem EdbStep_foldl_addExonStep :
    ∀ (exs : List ExonObj) (db : ExonDb), EdbStep db (exs.foldl addExonStep db) := by
  intro exs
  induction exs with
  | nil => intro db; exact EdbStep_refl db
  | cons x exs ih =>
    intro db
    exact EdbStep_trans (EdbStep_addExonStep db x) (ih _)

theorem addIntrons_exonDb (maxIntron : Int) (s : GimmeState)
    (exons : List ExonObj) (cno : Nat) (s' : GimmeState)
    (hok : addIntrons maxIntron s exons cno = .ok s') :
    EdbStep s.exonDb s'.exonDb := by
  unfold addIntrons at hok
  rcases hloop : addIntronsLoop maxIntron s.exonDb s.intronDb [] [] exons with e |
      ⟨edb, idb, names, existing⟩ <;> rw [hloop] at hok
  · cases hok
  have hstep := addIntronsLoop_edb maxIntron exons s.exonDb s.intronDb [] []
    (edb, idb, names, existing) hloop
  cases names with
  | nil =>
    obtain rfl := Except.ok.inj hok
    exact hstep
  | cons n₀ ns =>
    simp only at hok
    by_cases hex : existing = []
    · rw [if_pos hex] at hok
      obtain rfl := Except.ok.inj hok
      exact hstep
    · rw [if_neg hex] at hok
      rcases habs : absorbClusters s.clusters NxDiGraph.empty existing with e |
          ⟨cls, acc⟩ <;> rw [habs] at hok
      · simp at hok
      simp only at hok
      rcases hre : reassignNodes idb cno acc.nodes with e | idb2 <;>
        rw [hre] at hok
      · simp at hok
      simp only [Except.ok.injEq] at hok
      subst hok
      exact hstep

/-- C10 (registry key consistency): a consistent registry stays consistent
under `addExon` and `addIntrons`, neither operation ever changes a
registered exon's chromosome, start or end (they insert new entries or
update only `terminal`, `nextExons` and `introns`), and in a consistent
registry every lookup returns an exon whose identity string is exactly the
queried key.  `collapseExons` reads the registry but returns only a graph —
in the embedding its type has no registry output, so it cannot modify it. -/
theorem registry_key_consistency (db : ExonDb) (al : List ExonObj)
    (maxIntron : Int) (s : GimmeState) (cno : Nat)
    (hdb : KeysConsistent db) (hs : KeysConsistent s.exonDb) :
    KeysConsistent (addExon db al) ∧
    (∀ k e, lookupA db k = some e → ∃ e', lookupA (addExon db al) k = some e' ∧
      e'.chrom = e.chrom ∧ e'.start = e.start ∧ e'.stop = e.stop) ∧
    (∀ s', addIntrons maxIntron s al cno = .ok s' →
      KeysConsistent s'.exonDb ∧
      (∀ k e, lookupA s.exonDb k = some e → ∃ e', lookupA s'.exonDb k = some e' ∧
        e'.chrom = e.chrom ∧ e'.start = e.start ∧ e'.stop = e.stop)) ∧
    (∀ k e, lookupA db k = some e → exonStr e = k) := by
  have hstep := EdbStep_foldl_addExonStep (setTerminals al) db
  refine ⟨hstep.1 hdb, hstep.2, ?_, ?_⟩
  · intro s' hok
    have h := addIntrons_exonDb maxIntron s al cno s' hok
    exact ⟨h.1 hs, h.2⟩
  · intro k e hl
    exact hdb (k, e) (lookupA_mem db k e hl)

/-- Witness for C10 on a concrete consistent registry and alignment. -/
theorem registry_key_consistency_witness :
    KeysConsistent (addExon [("chr1:0-100", mkExonObj "chr1" 0 100)] c7b) ∧
    (∀ k e, lookupA [("chr1:0-100", mkExonObj "chr1" 0 100)] k = some e →
      ∃ e', lookupA (addExon [("chr1:0-100", mkExonObj "chr1" 0 100)] c7b) k =
          some e' ∧
        e'.chrom = e.chrom ∧ e'.start = e.start ∧ e'.stop = e.stop) ∧
    (∀ s', addIntrons 100000 ⟨[("chr1:0-100", mkExonObj "chr1" 0 100)], [], []⟩
        c7b 0 = .ok s' →
      KeysConsistent s'.exonDb ∧
      (∀ k e, lookupA [("chr1:0-100", mkExonObj "chr1" 0 100)] k = some e →
        ∃ e', lookupA s'.exonDb k = some e' ∧
          e'.chrom = e.chrom ∧ e'.start = e.start ∧ e'.stop = e.stop)) ∧
    (∀ k e, lookupA [("chr1:0-100", mkExonObj "chr1" 0 100)] k = some e →
      exonStr e = k) :=
  registry_key_consistency [("chr1:0-100", mkExonObj "chr1" 0 100)] c7b
    100000 ⟨[("chr1:0-100", mkExonObj "chr1" 0 100)], [], []⟩ 0
    (by intro p hp; rcases List.mem_singleton.1 hp with rfl; rfl)
    (by intro p hp; rcases List.mem_singleton.1 hp with rfl; rfl)

theorem nodup_insertU {α : Type} [DecidableEq α] {l : List α} (x : α)
    (h : l.Nodup) : (insertU x l).Nodup := by
  unfold insertU
  split
  · exact h
  · rw [List.nodup_append]
    refine ⟨h, List.nodup_singleton x, ?_⟩
    intro a ha hax
    rw [List.mem_singleton] at hax
    subst hax
    exact (by assumption : ¬ a ∈ l) ha

theorem mem_eraseA {κ ν : Type} [DecidableEq κ] :
    ∀ (l : List (κ × ν)) (k : κ) (p : κ × ν), p ∈ eraseA l k → p ∈ l := by
  intro l
  induction l with
  | nil => intro k p h; cases h
  | cons q t ih =>
    rcases q with ⟨qk, qv⟩
    intro k p h
    by_cases hq : qk = k
    · simp only [eraseA, if_pos hq] at h
      exact List.mem_cons_of_mem _ h
    · simp only [eraseA, if_neg hq] at h
      rcases List.mem_cons.1 h with rfl | h2
      · exact List.mem_cons_self _ _
      · exact List.mem_cons_of_mem _ (ih k p h2)

theorem keys_eraseA_subset {κ ν : Type} [DecidableEq κ]
    (l : List (κ × ν)) (k : κ) :
    ∀ k', k' ∈ (eraseA l k).map Prod.fst → k' ∈ l.map Prod.fst := by
  intro k' h
  obtain ⟨p, hp, rfl⟩ := List.mem_map.1 h
  exact List.mem_map.2 ⟨p, mem_eraseA l k p hp, rfl⟩

theorem nodupKeys_eraseA {κ ν : Type} [DecidableEq κ] :
    ∀ (l : List (κ × ν)) (k : κ), nodupKeys l → nodupKeys (eraseA l k) := by
  intro l
  induction l with
  | nil => intro k h; exact h
  | cons q t ih =>
    rcases q with ⟨qk, qv⟩
    intro k h
    rw [nodupKeys, List.map_cons, List.nodup_cons] at h
    by_cases hq : qk = k
    · simp only [eraseA, if_pos hq]
      exact h.2
    · rw [nodupKeys]
      simp only [eraseA, if_neg hq, List.map_cons, List.nodup_cons]
      exact ⟨fun hm => h.1 (keys_eraseA_subset t k qk hm), ih k h.2⟩

theorem lookupA_eraseA_ne {κ ν : Type} [DecidableEq κ] :
    ∀ (l : List (κ × ν)) (k k' : κ), k' ≠ k →
      lookupA (eraseA l k) k' = lookupA l k' := by
  intro l
  induction l with
  | nil => intro k k' _; rfl
  | cons q t ih =>
    rcases q with ⟨qk, qv⟩
    intro k k' h
    by_cases hq : qk = k
    · subst hq
      rw [show eraseA ((qk, qv) :: t) qk = t by simp [eraseA]]
      rw [show lookupA ((qk, qv) :: t) k' = lookupA t k' by
        simp [lookupA, if_neg (Ne.symm h)]]
    · simp only [eraseA, if_neg hq, lookupA]
      by_cases hq' : qk = k'
      · rw [if_pos hq', if_pos hq']
      · rw [if_neg hq', if_neg hq']
        exact ih k k' h

theorem lookupA_eraseA_self {κ ν : Type} [DecidableEq κ] :
    ∀ (l : List (κ × ν)) (k : κ), nodupKeys l → lookupA (eraseA l k) k = none := by
  intro l
  induction l with
  | nil => intro k _; rfl
  | cons q t ih =>
    rcases q with ⟨qk, qv⟩
    intro k h
    rw [nodupKeys, List.map_cons, List.nodup_cons] at h
    by_cases hq : qk = k
    · subst hq
      simp only [eraseA, if_pos rfl]
      cases hl : lookupA t qk with
      | none => exact hl
      | some v =>
        exact absurd ((lookupA_isSome_iff t qk).1 (by rw [hl]; rfl)) h.1
    · simp only [eraseA, if_neg hq, lookupA, if_neg hq]
      exact ih k h.2

theorem mem_lookupA {κ ν : Type} [DecidableEq κ] :
    ∀ (l : List (κ × ν)) (k : κ) (v : ν), nodupKeys l → (k, v) ∈ l →
      lookupA l k = some v := by
  intro l
  induction l with
  | nil => intro k v _ h; cases h
  | cons q t ih =>
    rcases q with ⟨qk, qv⟩
    intro k v hn hm
    rw [nodupKeys, List.map_cons, List.nodup_cons] at hn
    rcases List.mem_cons.1 hm with heq | h2
    · obtain ⟨rfl, rfl⟩ := Prod.mk.inj heq
      simp [lookupA]
    · have hk : qk ≠ k := by
        rintro rfl
        exact hn.1 (List.mem_map.2 ⟨(qk, v), h2, rfl⟩)
      simp only [lookupA, if_neg hk]
      exact ih k v hn.2 h2

theorem NxDiGraph.mem_nodes_addNode {α : Type} [DecidableEq α]
    {g : NxDiGraph α} {x y : α} :
    x ∈ (g.addNode y).nodes ↔ x = y ∨ x ∈ g.nodes := by
  simp only [NxDiGraph.addNode, mem_insertU]

theorem NxDiGraph.edges_addNode {α : Type} [DecidableEq α]
    (g : NxDiGraph α) (y : α) : (g.addNode y).edges = g.edges := rfl

theorem NxDiGraph.mem_nodes_addPath {α : Type} [DecidableEq α] :
    ∀ (l : List α) (g : NxDiGraph α) (x : α),
      x ∈ (g.addPath l).nodes ↔ x ∈ g.nodes ∨ x ∈ l := by
  intro l
  induction l with
  | nil => intro g x; simp [NxDiGraph.addPath]
  | cons a t ih =>
    intro g x
    cases t with
    | nil =>
      rw [NxDiGraph.addPath, NxDiGraph.mem_nodes_addNode]
      simp [or_comm]
    | cons b t2 =>
      rw [NxDiGraph.addPath, ih, NxDiGraph.mem_nodes_addEdge]
      simp only [List.mem_cons]
      tauto

theorem NxDiGraph.edges_subset_addPath {α : Type} [DecidableEq α] :
    ∀ (l : List α) (g : NxDiGraph α) (e : α × α),
      e ∈ g.edges → e ∈ (g.addPath l).edges := by
  intro l
  induction l with
  | nil => intro g e h; exact h
  | cons a t ih =>
    intro g e h
    cases t with
    | nil => exact h
    | cons b t2 =>
      rw [NxDiGraph.addPath]
      exact ih _ e (NxDiGraph.mem_edges_addEdge.2 (Or.inl h))

theorem NxDiGraph.WF_addNode {α : Type} [DecidableEq α]
    {g : NxDiGraph α} {y : α} (h : g.WF) : (g.addNode y).WF := by
  intro e he
  rw [NxDiGraph.edges_addNode] at he
  obtain ⟨h1, h2⟩ := h e he
  exact ⟨NxDiGraph.mem_nodes_addNode.2 (Or.inr h1),
    NxDiGraph.mem_nodes_addNode.2 (Or.inr h2)⟩

theorem NxDiGraph.WF_addPath {α : Type} [DecidableEq α] :
    ∀ (l : List α) (g : NxDiGraph α), g.WF → (g.addPath l).WF := by
  intro l
  induction l with
  | nil => intro g h; exact h
  | cons a t ih =>
    intro g h
    cases t with
    | nil => exact NxDiGraph.WF_addNode h
    | cons b t2 =>
      rw [NxDiGraph.addPath]
      exact ih _ (NxDiGraph.WF_addEdge h)

theorem Covered_addPath2 {α : Type} [DecidableEq α] :
    ∀ (rest : List α) (g : NxDiGraph α) (x y : α), Covered g →
      Covered (g.addPath (x :: y :: rest)) := by
  intro rest
  induction rest with
  | nil =>
    intro g x y hcov n hn
    rw [NxDiGraph.addPath, NxDiGraph.addPath, NxDiGraph.mem_nodes_addNode,
      NxDiGraph.mem_nodes_addEdge] at hn
    rw [NxDiGraph.addPath, NxDiGraph.addPath, NxDiGraph.edges_addNode]
    rcases hn with rfl | hg | rfl | rfl
    · exact ⟨(x, n), NxDiGraph.mem_edges_addEdge.2 (Or.inr rfl), Or.inr rfl⟩
    · obtain ⟨e, he, hend⟩ := hcov n hg
      exact ⟨e, NxDiGraph.mem_edges_addEdge.2 (Or.inl he), hend⟩
    · exact ⟨(n, y), NxDiGraph.mem_edges_addEdge.2 (Or.inr rfl), Or.inl rfl⟩
    · exact ⟨(x, n), NxDiGraph.mem_edges_addEdge.2 (Or.inr rfl), Or.inr rfl⟩
  | cons z rest ih =>
    intro g x y hcov
    rw [NxDiGraph.addPath]
    refine ih (g.addEdge x y) y z ?_
    intro n hn
    rw [NxDiGraph.mem_nodes_addEdge] at hn
    rcases hn with hg | rfl | rfl
    · obtain ⟨e, he, hend⟩ := hcov n hg
      exact ⟨e, NxDiGraph.mem_edges_addEdge.2 (Or.inl he), hend⟩
    · exact ⟨(n, y), NxDiGraph.mem_edges_addEdge.2 (Or.inr rfl), Or.inl rfl⟩
    · exact ⟨(x, n), NxDiGraph.mem_edges_addEdge.2 (Or.inr rfl), Or.inr rfl⟩

theorem LoopSpec_refl (idb₀ : IntronDb) : LoopSpec idb₀ idb₀ [] [] := by
  refine ⟨fun k => ?_, fun k o₀ h => ⟨o₀, h, rfl⟩,
    fun k o h => Or.inl ⟨o, h, rfl⟩, fun c hc => absurd hc (List.not_mem_nil c),
    fun n hn => absurd hn (List.not_mem_nil n), fun h => h, List.nodup_nil⟩
  simp

theorem LoopSpec_new (idb₀ idb : IntronDb) (names : List String)
    (existing : List (Option Nat)) (iname : String) (intron : IntronObj)
    (hnone : lookupA idb iname = none) (hattr : intron.cluster = none)
    (h : LoopSpec idb₀ idb names existing) :
    LoopSpec idb₀ (insertA idb iname intron) (names ++ [iname]) existing := by
  have h₀ : lookupA idb₀ iname = none := by
    cases h0 : lookupA idb₀ iname with
    | none => rfl
    | some o₀ =>
      have := (h.keysIff iname).2 (Or.inl (by rw [h0]; rfl))
      rw [hnone] at this
      cases this
  refine ⟨?_, ?_, ?_, ?_, ?_, ?_, h.exNodup⟩
  · intro k
    by_cases hk : k = iname
    · subst hk
      simp only [lookupA_insertA_self, List.mem_append, List.mem_singleton]
      simp
    · rw [lookupA_insertA_ne idb iname k intron hk]
      rw [h.keysIff k]
      simp only [List.mem_append, List.mem_singleton]
      tauto
  · intro k o₀ hl₀
    have hk : k ≠ iname := by rintro rfl; rw [h₀] at hl₀; cases hl₀
    obtain ⟨o, hl, hcl⟩ := h.attrOld k o₀ hl₀
    exact ⟨o, by rw [lookupA_insertA_ne idb iname k intron hk]; exact hl, hcl⟩
  · intro k o hl
    by_cases hk : k = iname
    · subst hk
      rw [lookupA_insertA_self] at hl
      obtain rfl := Option.some.inj hl
      exact Or.inr ⟨hattr, by simp, h₀⟩
    · rw [lookupA_insertA_ne idb iname k intron hk] at hl
      rcases h.attrAll k o hl with hA | ⟨h1, h2, h3⟩
      · exact Or.inl hA
      · exact Or.inr ⟨h1, List.mem_append.2 (Or.inl h2), h3⟩
  · intro c hc
    rcases h.exFrom c hc with hA | ⟨n, hn, o₀, hl₀, hcl⟩
    · exact Or.inl hA
    · exact Or.inr ⟨n, List.mem_append.2 (Or.inl hn), o₀, hl₀, hcl⟩
  · intro n hn o₀ hl₀
    rcases List.mem_append.1 hn with hn' | hn'
    · exact h.exAll n hn' o₀ hl₀
    · rw [List.mem_singleton] at hn'
      subst hn'
      rw [h₀] at hl₀
      cases hl₀
  · intro hn₀
    exact nodupKeys_insertA idb iname intron (h.nodup hn₀)

theorem LoopSpec_existing (idb₀ idb : IntronDb) (names : List String)
    (existing : List (Option Nat)) (iname : String) (intron_ : IntronObj)
    (f : IntronObj → IntronObj) (hf : ∀ io, (f io).cluster = io.cluster)
    (hsome : lookupA idb iname = some intron_)
    (h : LoopSpec idb₀ idb names existing) :
    LoopSpec idb₀ (mapEntry idb iname f) (names ++ [iname])
      (insertU intron_.cluster existing) := by
  refine ⟨?_, ?_, ?_, ?_, ?_, ?_, nodup_insertU _ h.exNodup⟩
  · intro k
    by_cases hk : k = iname
    · subst hk
      rw [lookupA_mapEntry_self, hsome]
      simp
    · rw [lookupA_mapEntry_ne idb iname k f hk]
      rw [h.keysIff k]
      simp only [List.mem_append, List.mem_singleton]
      tauto
  · intro k o₀ hl₀
    obtain ⟨o, hl, hcl⟩ := h.attrOld k o₀ hl₀
    by_cases hk : k = iname
    · subst hk
      rw [hsome] at hl
      obtain rfl := Option.some.inj hl
      refine ⟨f intron_, ?_, by rw [hf]; exact hcl⟩
      rw [lookupA_mapEntry_self, hsome]
      rfl
    · exact ⟨o, by rw [lookupA_mapEntry_ne idb iname k f hk]; exact hl, hcl⟩
  · intro k o hl
    by_cases hk : k = iname
    · subst hk
      rw [lookupA_mapEntry_self, hsome] at hl
      obtain rfl := Option.some.inj hl
      rcases h.attrAll k intron_ hsome with ⟨o₀, hl₀, hcl⟩ | ⟨h1, _, h3⟩
      · exact Or.inl ⟨o₀, hl₀, by rw [hf]; exact hcl⟩
      · exact Or.inr ⟨by rw [hf]; exact h1, by simp, h3⟩
    · rw [lookupA_mapEntry_ne idb iname k f hk] at hl
      rcases h.attrAll k o hl with hA | ⟨h1, h2, h3⟩
      · exact Or.inl hA
      · exact Or.inr ⟨h1, List.mem_append.2 (Or.inl h2), h3⟩
  · intro c hc
    rcases mem_insertU.1 hc with rfl | hc'
    · rcases h.attrAll iname intron_ hsome with ⟨o₀, hl₀, hcl⟩ | ⟨h1, _, _⟩
      · exact Or.inr ⟨iname, by simp, o₀, hl₀, hcl.symm⟩
      · exact Or.inl h1
    · rcases h.exFrom c hc' with hA | ⟨n, hn, o₀, hl₀, hcl⟩
      · exact Or.inl hA
      · exact Or.inr ⟨n, List.mem_append.2 (Or.inl hn), o₀, hl₀, hcl⟩
  · intro n hn o₀ hl₀
    rcases List.mem_append.1 hn with hn' | hn'
    · exact mem_insertU.2 (Or.inr (h.exAll n hn' o₀ hl₀))
    · rw [List.mem_singleton] at hn'
      subst hn'
      obtain ⟨o, hl, hcl⟩ := h.attrOld n o₀ hl₀
      rw [hsome] at hl
      obtain rfl := Option.some.inj hl
      exact mem_insertU.2 (Or.inl hcl.symm)
  · intro hn₀
    exact nodupKeys_mapEntry idb iname f (h.nodup hn₀)

theorem addIntronsLoop_spec (maxIntron : Int) (idb₀ : IntronDb) :
    ∀ (exs : List ExonObj) (edb : ExonDb) (idb : IntronDb)
      (names : List String) (existing : List (Option Nat))
      (out : ExonDb × IntronDb × List String × List (Option Nat)),
      LoopSpec idb₀ idb names existing →
      addIntronsLoop maxIntron edb idb names existing exs = .ok out →
      LoopSpec idb₀ out.2.1 out.2.2.1 out.2.2.2 := by
  intro exs
  induction exs with
  | nil =>
    intro edb idb names existing out hLS hok
    obtain rfl := Except.ok.inj hok
    exact hLS
  | cons e₁ xs ih =>
    intro edb idb names existing out hLS hok
    cases xs with
    | nil =>
      obtain rfl := Except.ok.inj hok
      exact hLS
    | cons e₂ rest =>
      rw [addIntronsLoop] at hok
      cases hl1 : lookupA edb (exonStr e₁) with
      | none => rw [hl1] at hok; simp at hok
      | some curr =>
        cases hl2 : lookupA edb (exonStr e₂) with
        | none => rw [hl1, hl2] at hok; simp at hok
        | some next =>
          rw [hl1, hl2] at hok
          simp only at hok
          by_cases hmax : next.start - 1 - (curr.stop + 1) > maxIntron
          · rw [if_pos hmax] at hok
            exact ih _ _ _ _ out hLS hok
          · rw [if_neg hmax] at hok
            cases hli : lookupA idb
                (intronStr curr.chrom (curr.stop + 1) (next.start - 1)) with
            | none =>
              rw [hli] at hok
              exact ih _ _ _ _ out
                (LoopSpec_new idb₀ idb names existing _ _ hli rfl hLS) hok
            | some intron_ =>
              rw [hli] at hok
              exact ih _ _ _ _ out
                (LoopSpec_existing idb₀ idb names existing _ intron_
                  (fun io =>
                    { io with
                      graph := io.graph.addEdge (exonStr curr) (exonStr next) })
                  (fun io => rfl) hli hLS) hok

theorem lookupA_assignIntronClusters (cno : Nat) :
    ∀ (names : List String) (idb : IntronDb) (k : String),
      lookupA (assignIntronClusters idb names cno) k =
        if k ∈ names then
          (lookupA idb k).map (fun io => { io with cluster := some cno })
        else lookupA idb k := by
  intro names
  induction names with
  | nil => intro idb k; simp [assignIntronClusters]
  | cons n ns ih =>
    intro idb k
    have hstep : assignIntronClusters idb (n :: ns) cno =
        assignIntronClusters
          (mapEntry idb n (fun io => { io with cluster := some cno })) ns cno := rfl
    rw [hstep, ih]
    by_cases hns : k ∈ ns
    · rw [if_pos hns, if_pos (List.mem_cons_of_mem n hns)]
      by_cases hn : k = n
      · subst hn
        rw [lookupA_mapEntry_self]
        cases lookupA idb k <;> simp
      · rw [lookupA_mapEntry_ne idb n k _ hn]
    · rw [if_neg hns]
      by_cases hn : k = n
      · subst hn
        rw [lookupA_mapEntry_self, if_pos (List.mem_cons_self k ns)]
      · rw [lookupA_mapEntry_ne idb n k _ hn,
          if_neg (fun hm => (List.mem_cons.1 hm).elim hn hns)]

theorem keys_assignIntronClusters (cno : Nat) :
    ∀ (names : List String) (idb : IntronDb),
      (assignIntronClusters idb names cno).map Prod.fst = idb.map Prod.fst := by
  intro names
  induction names with
  | nil => intro idb; rfl
  | cons n ns ih =>
    intro idb
    have hstep : assignIntronClusters idb (n :: ns) cno =
        assignIntronClusters
          (mapEntry idb n (fun io => { io with cluster := some cno })) ns cno := rfl
    rw [hstep, ih, keys_mapEntry]

theorem reassignNodes_spec (cno : Nat) :
    ∀ (ns : List String) (idb idb' : IntronDb),
      reassignNodes idb cno ns = .ok idb' →
      (∀ k, lookupA idb' k =
        if k ∈ ns then
          (lookupA idb k).map (fun io => { io with cluster := some cno })
        else lookupA idb k) ∧
      idb'.map Prod.fst = idb.map Prod.fst := by
  intro ns
  induction ns with
  | nil =>
    intro idb idb' hok
    obtain rfl := Except.ok.inj hok
    simp
  | cons n rest ih =>
    intro idb idb' hok
    rw [reassignNodes] at hok
    cases hl : lookupA idb n with
    | none => rw [hl] at hok; cases hok
    | some o =>
      rw [hl] at hok
      obtain ⟨hchar, hkeys⟩ := ih _ _ hok
      constructor
      · intro k
        rw [hchar k]
        by_cases hrest : k ∈ rest
        · rw [if_pos hrest, if_pos (List.mem_cons_of_mem n hrest)]
          by_cases hn : k = n
          · subst hn
            rw [lookupA_mapEntry_self]
            cases lookupA idb k <;> simp
          · rw [lookupA_mapEntry_ne idb n k _ hn]
        · rw [if_neg hrest]
          by_cases hn : k = n
          · subst hn
            rw [lookupA_mapEntry_self, if_pos (List.mem_cons_self k rest)]
          · rw [lookupA_mapEntry_ne idb n k _ hn,
              if_neg (fun hm => (List.mem_cons.1 hm).elim hn hrest)]
      · rw [hkeys, keys_mapEntry]

theorem absorbClusters_subset :
    ∀ (ex : List (Option Nat)) (cls : ClusterTable) (acc : NxDiGraph String)
      (out : ClusterTable × NxDiGraph String),
      absorbClusters cls acc ex = .ok out → ∀ p ∈ out.1, p ∈ cls := by
  intro ex
  induction ex with
  | nil =>
    intro cls acc out hok
    obtain rfl := Except.ok.inj hok
    intro p hp
    exact hp
  | cons c rest ih =>
    intro cls acc out hok
    cases c with
    | none => cases hok
    | some k =>
      rw [absorbClusters] at hok
      cases hl : lookupA cls k with
      | none => rw [hl] at hok; cases hok
      | some cg =>
        rw [hl] at hok
        intro p hp
        exact mem_eraseA cls k p (ih _ _ out hok p hp)

theorem absorbClusters_spec :
    ∀ (ex : List (Option Nat)) (cls : ClusterTable) (acc : NxDiGraph String)
      (out : ClusterTable × NxDiGraph String),
      ex.Nodup → nodupKeys cls →
      absorbClusters cls acc ex = .ok out →
      (∀ c ∈ ex, ∃ k, c = some k ∧ (lookupA cls k).isSome) ∧
      (∀ k, lookupA out.1 k =
        if (some k) ∈ ex then none else lookupA cls k) ∧
      nodupKeys out.1 ∧
      (∀ e, e ∈ out.2.edges ↔ e ∈ acc.edges ∨
        ∃ k g, (some k) ∈ ex ∧ lookupA cls k = some g ∧ e ∈ g.edges) ∧
      (∀ n, n ∈ out.2.nodes ↔ n ∈ acc.nodes ∨
        ∃ k g e, (some k) ∈ ex ∧ lookupA cls k = some g ∧ e ∈ g.edges ∧
          (e.1 = n ∨ e.2 = n)) := by
  intro ex
  induction ex with
  | nil =>
    intro cls acc out hnd hndk hok
    obtain rfl := Except.ok.inj hok
    refine ⟨fun c hc => absurd hc (List.not_mem_nil c), fun k => by simp,
      hndk, fun e => by simp, fun n => by simp⟩
  | cons c rest ih =>
    intro cls acc out hnd hndk hok
    cases c with
    | none => cases hok
    | some k =>
      rw [absorbClusters] at hok
      cases hl : lookupA cls k with
      | none => rw [hl] at hok; cases hok
      | some cg =>
        rw [hl] at hok
        rw [List.nodup_cons] at hnd
        obtain ⟨P1, P2, P3, P4, P5⟩ :=
          ih (eraseA cls k) (acc.addEdgesFrom cg.edges) out hnd.2
            (nodupKeys_eraseA cls k hndk) hok
        have hrestk : ∀ k', (some k') ∈ rest → k' ≠ k := by
          rintro k' hk' rfl
          exact hnd.1 hk'
        have hrest_look : ∀ k' g', (some k') ∈ rest →
            (lookupA (eraseA cls k) k' = some g' ↔ lookupA cls k' = some g') := by
          intro k' g' hk'
          rw [lookupA_eraseA_ne cls k k' (hrestk k' hk')]
        refine ⟨?_, ?_, P3, ?_, ?_⟩
        · intro c hc
          rcases List.mem_cons.1 hc with rfl | hc'
          · exact ⟨k, rfl, by rw [hl]; rfl⟩
          · obtain ⟨k', rfl, hsome⟩ := P1 c hc'
            refine ⟨k', rfl, ?_⟩
            rw [lookupA_eraseA_ne cls k k' (hrestk k' hc')] at hsome
            exact hsome
        · intro k'
          rw [P2 k']
          by_cases hin : (some k') ∈ rest
          · rw [if_pos hin, if_pos (List.mem_cons_of_mem _ hin)]
          · rw [if_neg hin]
            by_cases hkk : k' = k
            · subst hkk
              rw [lookupA_eraseA_self cls k' hndk,
                if_pos (List.mem_cons_self (some k') rest)]
            · rw [lookupA_eraseA_ne cls k k' hkk,
                if_neg (fun hm => (List.mem_cons.1 hm).elim
                  (fun he => hkk (Option.some.inj he)) hin)]
        · intro e
          rw [P4 e, NxDiGraph.mem_edges_addEdgesFrom]
          constructor
          · rintro ((he | he) | ⟨k', g', hk', hg', he⟩)
            · exact Or.inl he
            · exact Or.inr ⟨k, cg, List.mem_cons_self _ _, hl, he⟩
            · exact Or.inr ⟨k', g', List.mem_cons_of_mem _ hk',
                (hrest_look k' g' hk').1 hg', he⟩
          · rintro (he | ⟨k', g', hk', hg', he⟩)
            · exact Or.inl (Or.inl he)
            · rcases List.mem_cons.1 hk' with heq | hk''
              · obtain rfl := Option.some.inj heq
                rw [hl] at hg'
                obtain rfl := Option.some.inj hg'
                exact Or.inl (Or.inr he)
              · exact Or.inr ⟨k', g', hk'', (hrest_look k' g' hk'').2 hg', he⟩
        · intro n
          rw [P5 n, NxDiGraph.mem_nodes_addEdgesFrom]
          constructor
          · rintro ((hn | ⟨e, he, hend⟩) | ⟨k', g', e, hk', hg', he, hend⟩)
            · exact Or.inl hn
            · exact Or.inr ⟨k, cg, e, List.mem_cons_self _ _, hl, he,
                by tauto⟩
            · exact Or.inr ⟨k', g', e, List.mem_cons_of_mem _ hk',
                (hrest_look k' g' hk').1 hg', he, hend⟩
          · rintro (hn | ⟨k', g', e, hk', hg', he, hend⟩)
            · exact Or.inl (Or.inl hn)
            · rcases List.mem_cons.1 hk' with heq | hk''
              · obtain rfl := Option.some.inj heq
                rw [hl] at hg'
                obtain rfl := Option.some.inj hg'
                exact Or.inl (Or.inr ⟨e, he, by tauto⟩)
              · exact Or.inr ⟨k', g', e, hk'', (hrest_look k' g' hk'').2 hg',
                  he, hend⟩

theorem ClusterInv_create (edb : ExonDb) (s : GimmeState) (cno : Nat)
    (idb : IntronDb) (names : List String) (cg : NxDiGraph String)
    (hLS : LoopSpec s.intronDb idb names [])
    (hinv : ClusterInv s cno)
    (hcgn : ∀ x, x ∈ cg.nodes ↔ x ∈ names)
    (hcgs : (∃ x, cg.nodes = [x] ∧ cg.edges = []) ∨ Covered cg)
    (hcgwf : cg.WF) :
    ClusterInv ⟨edb, assignIntronClusters idb names cno,
      insertA s.clusters cno cg⟩ (cno + 1) := by
  have hdisj : ∀ n ∈ names, lookupA s.intronDb n = none := by
    intro n hn
    cases h0 : lookupA s.intronDb n with
    | none => rfl
    | some o₀ => exact absurd (hLS.exAll n hn o₀ h0) (List.not_mem_nil _)
  have hndk2 : nodupKeys (assignIntronClusters idb names cno) := by
    rw [nodupKeys, keys_assignIntronClusters]
    exact hLS.nodup hinv.idbNodup
  have hchar : ∀ p ∈ assignIntronClusters idb names cno,
      (p.1 ∈ names ∧ p.2.cluster = some cno) ∨
      (p.1 ∉ names ∧ lookupA idb p.1 = some p.2) := by
    intro p hp
    have hlook := mem_lookupA _ p.1 p.2 hndk2 hp
    rw [lookupA_assignIntronClusters] at hlook
    by_cases hpn : p.1 ∈ names
    · rw [if_pos hpn] at hlook
      cases hli : lookupA idb p.1 with
      | none => rw [hli] at hlook; cases hlook
      | some o =>
        rw [hli] at hlook
        obtain heq := Option.some.inj hlook
        exact Or.inl ⟨hpn, by rw [← heq]⟩
    · rw [if_neg hpn] at hlook
      exact Or.inr ⟨hpn, hlook⟩
  have hold : ∀ (p : String × IntronObj), p.1 ∉ names →
      lookupA idb p.1 = some p.2 →
      ∃ o₀, lookupA s.intronDb p.1 = some o₀ ∧ p.2.cluster = o₀.cluster := by
    intro p hpn hl
    rcases hLS.attrAll p.1 p.2 hl with hA | ⟨_, h2, _⟩
    · exact hA
    · exact absurd h2 hpn
  refine ⟨hndk2, nodupKeys_insertA _ _ _ hinv.clsNodup, ?_, ?_, ?_, ?_, ?_, ?_⟩
  · intro p hp
    rcases hchar p hp with ⟨hpn, hattr⟩ | ⟨hpn, hl⟩
    · exact ⟨cno, cg, hattr, lookupA_insertA_self _ _ _, (hcgn p.1).2 hpn⟩
    · obtain ⟨o₀, h₀, hcl⟩ := hold p hpn hl
      obtain ⟨k, g, ho, hg, hn⟩ := hinv.attrValid (p.1, o₀) (lookupA_mem _ _ _ h₀)
      have hkc : k ≠ cno := Nat.ne_of_lt (hinv.fresh (k, g) (lookupA_mem _ _ _ hg))
      refine ⟨k, g, by rw [hcl]; exact ho, ?_, hn⟩
      rw [lookupA_insertA_ne s.clusters cno k cg hkc]
      exact hg
  · intro p hp q hq hqn
    rcases mem_insertA _ _ _ q hq with hq' | rfl
    · have hq0 := hinv.nodesInDb q hq' p.1 hqn
      cases h0 : lookupA s.intronDb p.1 with
      | none => rw [h0] at hq0; cases hq0
      | some o₀' =>
        have hpn : p.1 ∉ names := fun hm => by rw [hdisj p.1 hm] at h0; cases h0
        rcases hchar p hp with ⟨hpn', _⟩ | ⟨_, hl⟩
        · exact absurd hpn' hpn
        · obtain ⟨o₀, h₀, hcl⟩ := hold p hpn hl
          rw [hcl]
          exact hinv.uniq (p.1, o₀) (lookupA_mem _ _ _ h₀) q hq' hqn
    · have hpn := (hcgn p.1).1 hqn
      rcases hchar p hp with ⟨_, hattr⟩ | ⟨hpn', _⟩
      · exact hattr
      · exact absurd hpn hpn'
  · intro q hq n hn
    rw [lookupA_isSome_iff, keys_assignIntronClusters, ← lookupA_isSome_iff]
    rcases mem_insertA _ _ _ q hq with hq' | rfl
    · exact (hLS.keysIff n).2 (Or.inl (hinv.nodesInDb q hq' n hn))
    · exact (hLS.keysIff n).2 (Or.inr ((hcgn n).1 hn))
  · intro q hq
    rcases mem_insertA _ _ _ q hq with hq' | rfl
    · exact Nat.lt_succ_of_lt (hinv.fresh q hq')
    · exact Nat.lt_succ_self cno
  · intro q hq
    rcases mem_insertA _ _ _ q hq with hq' | rfl
    · exact hinv.shape q hq'
    · exact hcgs
  · intro q hq
    rcases mem_insertA _ _ _ q hq with hq' | rfl
    · exact hinv.clwf q hq'
    · exact hcgwf

theorem ClusterInv_mergeCore (edb : ExonDb) (s : GimmeState) (cno : Nat)
    (idb idb₂ : IntronDb) (names : List String)
    (existing : List (Option Nat)) (cls₁ : ClusterTable)
    (acc cg : NxDiGraph String)
    (hLS : LoopSpec s.intronDb idb names existing)
    (hinv : ClusterInv s cno)
    (habs : absorbClusters s.clusters NxDiGraph.empty existing = .ok (cls₁, acc))
    (hre : reassignNodes idb cno acc.nodes = .ok idb₂)
    (hcgn : ∀ x, x ∈ cg.nodes ↔ x ∈ acc.nodes ∨ x ∈ names)
    (hcgs : (∃ x, cg.nodes = [x] ∧ cg.edges = []) ∨ Covered cg)
    (hcgwf : cg.WF) :
    ClusterInv ⟨edb, assignIntronClusters idb₂ names cno,
      insertA cls₁ cno cg⟩ (cno + 1) := by
  obtain ⟨A1, A2, A3, A4, A5⟩ :=
    absorbClusters_spec existing s.clusters NxDiGraph.empty (cls₁, acc)
      hLS.exNodup hinv.clsNodup habs
  obtain ⟨R1, R2⟩ := reassignNodes_spec cno acc.nodes idb idb₂ hre
  have hacc_edges : ∀ e, e ∈ acc.edges ↔ ∃ k g, (some k) ∈ existing ∧
      lookupA s.clusters k = some g ∧ e ∈ g.edges := by
    intro e
    rw [show acc = ((cls₁, acc) : ClusterTable × NxDiGraph String).2 from rfl, A4 e]
    constructor
    · rintro (h | h)
      · exact absurd h (List.not_mem_nil e)
      · exact h
    · exact Or.inr
  have hacc_nodes : ∀ n, n ∈ acc.nodes ↔ ∃ k g e, (some k) ∈ existing ∧
      lookupA s.clusters k = some g ∧ e ∈ g.edges ∧ (e.1 = n ∨ e.2 = n) := by
    intro n
    rw [show acc = ((cls₁, acc) : ClusterTable × NxDiGraph String).2 from rfl, A5 n]
    constructor
    · rintro (h | h)
      · exact absurd h (List.not_mem_nil n)
      · exact h
    · exact Or.inr
  have hacc_attr : ∀ n ∈ acc.nodes, ∃ k o₀, (some k) ∈ existing ∧
      lookupA s.intronDb n = some o₀ ∧ o₀.cluster = some k := by
    intro n hn
    obtain ⟨k, g, e, hk, hg, he, hend⟩ := (hacc_nodes n).1 hn
    have hgmem := lookupA_mem _ _ _ hg
    have hgwf := hinv.clwf (k, g) hgmem
    have hng : n ∈ g.nodes := by
      rcases hend with h | h
      · rw [← h]; exact (hgwf e he).1
      · rw [← h]; exact (hgwf e he).2
    have hsome := hinv.nodesInDb (k, g) hgmem n hng
    cases h0 : lookupA s.intronDb n with
    | none => rw [h0] at hsome; cases hsome
    | some o₀ =>
      exact ⟨k, o₀, hk, rfl,
        hinv.uniq (n, o₀) (lookupA_mem _ _ _ h0) (k, g) hgmem hng⟩
  have hndk3 : nodupKeys (assignIntronClusters idb₂ names cno) := by
    rw [nodupKeys, keys_assignIntronClusters, R2]
    exact hLS.nodup hinv.idbNodup
  have hchar : ∀ p ∈ assignIntronClusters idb₂ names cno,
      ((p.1 ∈ names ∨ p.1 ∈ acc.nodes) ∧ p.2.cluster = some cno) ∨
      (p.1 ∉ names ∧ p.1 ∉ acc.nodes ∧ lookupA idb p.1 = some p.2) := by
    intro p hp
    have hlook := mem_lookupA _ p.1 p.2 hndk3 hp
    rw [lookupA_assignIntronClusters] at hlook
    by_cases hpn : p.1 ∈ names
    · rw [if_pos hpn] at hlook
      cases hli : lookupA idb₂ p.1 with
      | none => rw [hli] at hlook; cases hlook
      | some o =>
        rw [hli] at hlook
        obtain heq := Option.some.inj hlook
        exact Or.inl ⟨Or.inl hpn, by rw [← heq]⟩
    · rw [if_neg hpn, R1 p.1] at hlook
      by_cases hpa : p.1 ∈ acc.nodes
      · rw [if_pos hpa] at hlook
        cases hli : lookupA idb p.1 with
        | none => rw [hli] at hlook; cases hlook
        | some o =>
          rw [hli] at hlook
          obtain heq := Option.some.inj hlook
          exact Or.inl ⟨Or.inr hpa, by rw [← heq]⟩
      · rw [if_neg hpa] at hlook
        exact Or.inr ⟨hpn, hpa, hlook⟩
  have hold : ∀ (p : String × IntronObj), p.1 ∉ names →
      lookupA idb p.1 = some p.2 →
      ∃ o₀, lookupA s.intronDb p.1 = some o₀ ∧ p.2.cluster = o₀.cluster := by
    intro p hpn hl
    rcases hLS.attrAll p.1 p.2 hl with hA | ⟨_, h2, _⟩
    · exact hA
    · exact absurd h2 hpn
  have hsurvive : ∀ (x : String) (o₀ : IntronObj) (k : Nat) (g : NxDiGraph String),
      x ∉ names → x ∉ acc.nodes →
      lookupA s.intronDb x = some o₀ → o₀.cluster = some k →
      lookupA s.clusters k = some g → x ∈ g.nodes →
      ¬ (some k) ∈ existing := by
    intro x o₀ k g hxn hxa h₀ ho hg hxg hkE
    rcases hinv.shape (k, g) (lookupA_mem _ _ _ hg) with ⟨y, hy, hye⟩ | hcov
    · rcases hLS.exFrom (some k) hkE with hnone | ⟨n, hn, o₀', h₀', hcl'⟩
      · cases hnone
      · obtain ⟨k', g', ho', hg', hn'⟩ :=
          hinv.attrValid (n, o₀') (lookupA_mem _ _ _ h₀')
        rw [hcl'] at ho'
        obtain rfl := Option.some.inj ho'.symm
        rw [hg] at hg'
        obtain rfl := Option.some.inj hg'.symm
        rw [hy] at hn' hxg
        rw [List.mem_singleton] at hn' hxg
        rw [← hxg] at hn'
        have hnx : n = x := hn'
        exact hxn (hnx ▸ hn)
    · obtain ⟨e, he, hend⟩ := hcov x hxg
      exact hxa ((hacc_nodes x).2 ⟨k, g, e, hkE, hg, he, hend⟩)
  have hq_cls₁ : ∀ q ∈ cls₁, q ∈ s.clusters ∧ ¬ (some q.1) ∈ existing := by
    intro q hq
    have hmem := absorbClusters_subset existing s.clusters NxDiGraph.empty
      (cls₁, acc) habs q hq
    have hlq : lookupA cls₁ q.1 = some q.2 := mem_lookupA _ _ _ A3 hq
    rw [show cls₁ = ((cls₁, acc) : ClusterTable × NxDiGraph String).1 from rfl,
      A2 q.1] at hlq
    by_cases hE : (some q.1) ∈ existing
    · rw [if_pos hE] at hlq
      cases hlq
    · exact ⟨hmem, hE⟩
  refine ⟨hndk3, nodupKeys_insertA _ _ _ A3, ?_, ?_, ?_, ?_, ?_, ?_⟩
  · intro p hp
    rcases hchar p hp with ⟨hor, hattr⟩ | ⟨hpn, hpa, hl⟩
    · exact ⟨cno, cg, hattr, lookupA_insertA_self _ _ _,
        (hcgn p.1).2 hor.symm⟩
    · obtain ⟨o₀, h₀, hcl⟩ := hold p hpn hl
      obtain ⟨k, g, ho, hg, hn⟩ := hinv.attrValid (p.1, o₀) (lookupA_mem _ _ _ h₀)
      have hkE := hsurvive p.1 o₀ k g hpn hpa h₀ ho hg hn
      have hkc : k ≠ cno := Nat.ne_of_lt (hinv.fresh (k, g) (lookupA_mem _ _ _ hg))
      refine ⟨k, g, by rw [hcl]; exact ho, ?_, hn⟩
      rw [lookupA_insertA_ne cls₁ cno k cg hkc,
        show cls₁ = ((cls₁, acc) : ClusterTable × NxDiGraph String).1 from rfl,
        A2 k, if_neg hkE]
      exact hg
  · intro p hp q hq hqn
    rcases mem_insertA _ _ _ q hq with hq' | rfl
    · obtain ⟨hqs, hqE⟩ := hq_cls₁ q hq'
      have hq0 := hinv.nodesInDb q hqs p.1 hqn
      cases h0 : lookupA s.intronDb p.1 with
      | none => rw [h0] at hq0; cases hq0
      | some o₀' =>
        have huq : o₀'.cluster = some q.1 :=
          hinv.uniq (p.1, o₀') (lookupA_mem _ _ _ h0) q hqs hqn
        have hpn : p.1 ∉ names := by
          intro hm
          have hmem := hLS.exAll p.1 hm o₀' h0
          rw [huq] at hmem
          exact hqE hmem
        have hpa : p.1 ∉ acc.nodes := by
          intro hm
          obtain ⟨k, o₀'', hkE, h₀'', hcl''⟩ := hacc_attr p.1 hm
          rw [h0] at h₀''
          obtain rfl := Option.some.inj h₀''
          rw [huq] at hcl''
          obtain rfl := Option.some.inj hcl''
          exact hqE hkE
        rcases hchar p hp with ⟨hor, _⟩ | ⟨_, _, hl⟩
        · rcases hor with h | h
          · exact absurd h hpn
          · exact absurd h hpa
        · obtain ⟨o₀, h₀, hcl⟩ := hold p hpn hl
          rw [h0] at h₀
          obtain rfl := Option.some.inj h₀
          rw [hcl]
          exact huq
    · rcases hchar p hp with ⟨_, hattr⟩ | ⟨hpn, hpa, _⟩
      · exact hattr
      · rcases (hcgn p.1).1 hqn with h | h
        · exact absurd h hpa
        · exact absurd h hpn
  · intro q hq n hn
    rw [lookupA_isSome_iff, keys_assignIntronClusters, R2, ← lookupA_isSome_iff]
    rcases mem_insertA _ _ _ q hq with hq' | rfl
    · exact (hLS.keysIff n).2 (Or.inl (hinv.nodesInDb q (hq_cls₁ q hq').1 n hn))
    · rcases (hcgn n).1 hn with ha | hm
      · obtain ⟨k, o₀, _, h₀, _⟩ := hacc_attr n ha
        exact (hLS.keysIff n).2 (Or.inl (by rw [h₀]; rfl))
      · exact (hLS.keysIff n).2 (Or.inr hm)
  · intro q hq
    rcases mem_insertA _ _ _ q hq with hq' | rfl
    · exact Nat.lt_succ_of_lt (hinv.fresh q (hq_cls₁ q hq').1)
    · exact Nat.lt_succ_self cno
  · intro q hq
    rcases mem_insertA _ _ _ q hq with hq' | rfl
    · exact hinv.shape q (hq_cls₁ q hq').1
    · exact hcgs
  · intro q hq
    rcases mem_insertA _ _ _ q hq with hq' | rfl
    · exact hinv.clwf q (hq_cls₁ q hq').1
    · exact hcgwf

theorem ClusterInv_merge (edb : ExonDb) (s : GimmeState) (cno : Nat)
    (idb idb₂ : IntronDb) (names : List String)
    (existing : List (Option Nat)) (cls₁ : ClusterTable)
    (acc cg : NxDiGraph String)
    (hLS : LoopSpec s.intronDb idb names existing)
    (hinv : ClusterInv s cno)
    (habs : absorbClusters s.clusters NxDiGraph.empty existing = .ok (cls₁, acc))
    (hre : reassignNodes idb cno acc.nodes = .ok idb₂)
    (hcg : (∃ n₀ n₁ rest, names = n₀ :: n₁ :: rest ∧ cg = acc.addPath names) ∨
      (∃ n₀, names = [n₀] ∧ cg = acc.addNode n₀)) :
    ClusterInv ⟨edb, assignIntronClusters idb₂ names cno,
      insertA cls₁ cno cg⟩ (cno + 1) := by
  obtain ⟨A1, A2, A3, A4, A5⟩ :=
    absorbClusters_spec existing s.clusters NxDiGraph.empty (cls₁, acc)
      hLS.exNodup hinv.clsNodup habs
  have hacc_edges : ∀ e, e ∈ acc.edges ↔ ∃ k g, (some k) ∈ existing ∧
      lookupA s.clusters k = some g ∧ e ∈ g.edges := by
    intro e
    rw [show acc = ((cls₁, acc) : ClusterTable × NxDiGraph String).2 from rfl, A4 e]
    constructor
    · rintro (h | h)
      · exact absurd h (List.not_mem_nil e)
      · exact h
    · exact Or.inr
  have hacc_nodes : ∀ n, n ∈ acc.nodes ↔ ∃ k g e, (some k) ∈ existing ∧
      lookupA s.clusters k = some g ∧ e ∈ g.edges ∧ (e.1 = n ∨ e.2 = n) := by
    intro n
    rw [show acc = ((cls₁, acc) : ClusterTable × NxDiGraph String).2 from rfl, A5 n]
    constructor
    · rintro (h | h)
      · exact absurd h (List.not_mem_nil n)
      · exact h
    · exact Or.inr
  have hacc_cov : Covered acc := by
    intro n hn
    obtain ⟨k, g, e, hk, hg, he, hend⟩ := (hacc_nodes n).1 hn
    exact ⟨e, (hacc_edges e).2 ⟨k, g, hk, hg, he⟩, hend⟩
  have hacc_wf : acc.WF := by
    intro e he
    obtain ⟨k, g, hk, hg, heg⟩ := (hacc_edges e).1 he
    have hgwf := hinv.clwf (k, g) (lookupA_mem _ _ _ hg)
    exact ⟨(hacc_nodes e.1).2 ⟨k, g, e, hk, hg, heg, Or.inl rfl⟩,
      (hacc_nodes e.2).2 ⟨k, g, e, hk, hg, heg, Or.inr rfl⟩⟩
  rcases hcg with ⟨n₀, n₁, rest, rfl, rfl⟩ | ⟨n₀, rfl, rfl⟩
  · refine ClusterInv_mergeCore edb s cno idb idb₂ _ existing cls₁ acc _
      hLS hinv habs hre ?_ ?_ ?_
    · intro x
      exact NxDiGraph.mem_nodes_addPath (n₀ :: n₁ :: rest) acc x
    · exact Or.inr (Covered_addPath2 rest acc n₀ n₁ hacc_cov)
    · exact NxDiGraph.WF_addPath (n₀ :: n₁ :: rest) acc hacc_wf
  · refine ClusterInv_mergeCore edb s cno idb idb₂ _ existing cls₁ acc _
      hLS hinv habs hre ?_ ?_ ?_
    · intro x
      rw [NxDiGraph.mem_nodes_addNode, List.mem_singleton]
      tauto
    · by_cases hE : acc.edges = []
      · have hno : acc.nodes = [] := by
          rw [List.eq_nil_iff_forall_not_mem]
          intro n hn
          obtain ⟨e, he, _⟩ := hacc_cov n hn
          rw [hE] at he
          exact List.not_mem_nil e he
        refine Or.inl ⟨n₀, ?_, hE⟩
        show insertU n₀ acc.nodes = [n₀]
        rw [hno]
        simp [insertU]
      · refine Or.inr ?_
        have hn₀ : n₀ ∈ acc.nodes := by
          obtain ⟨e₀, he₀⟩ := List.exists_mem_of_ne_nil acc.edges hE
          obtain ⟨k, g, hkE, hg, heg⟩ := (hacc_edges e₀).1 he₀
          rcases hLS.exFrom (some k) hkE with hnone | ⟨n, hn, o₀, h₀, hcl⟩
          · cases hnone
          · rw [List.mem_singleton] at hn
            subst hn
            obtain ⟨k', g', ho', hg', hn'⟩ :=
              hinv.attrValid (n, o₀) (lookupA_mem _ _ _ h₀)
            rw [hcl] at ho'
            obtain rfl := Option.some.inj ho'.symm
            rw [hg] at hg'
            obtain rfl := Option.some.inj hg'.symm
            rcases hinv.shape (k', g') (lookupA_mem _ _ _ hg) with
              ⟨y, hy, hye⟩ | hcov
            · rw [show (k', g').2.edges = g'.edges from rfl] at hye
              rw [hye] at heg
              exact absurd heg (List.not_mem_nil e₀)
            · obtain ⟨e, he, hend⟩ := hcov n hn'
              exact (hacc_nodes n).2 ⟨k', g', e, hkE, hg, he, hend⟩
        intro n hn
        rw [NxDiGraph.mem_nodes_addNode] at hn
        rcases hn with rfl | hn'
        · obtain ⟨e, he, hend⟩ := hacc_cov n hn₀
          exact ⟨e, he, hend⟩
        · obtain ⟨e, he, hend⟩ := hacc_cov n hn'
          exact ⟨e, he, hend⟩
    · exact NxDiGraph.WF_addNode hacc_wf

theorem NxDiGraph.WF_empty {α : Type} [DecidableEq α] :
    (NxDiGraph.empty : NxDiGraph α).WF := by
  intro e he
  exact absurd he (List.not_mem_nil e)

theorem Covered_empty {α : Type} [DecidableEq α] :
    Covered (NxDiGraph.empty : NxDiGraph α) := by
  intro n hn
  exact absurd hn (List.not_mem_nil n)

theorem addIntrons_preserves_inv (maxIntron : Int) (s : GimmeState)
    (exs : List ExonObj) (cno : Nat) (s' : GimmeState)
    (hinv : ClusterInv s cno)
    (hok : addIntrons maxIntron s exs cno = .ok s') :
    ClusterInv s' (cno + 1) := by
  unfold addIntrons at hok
  rcases hloop : addIntronsLoop maxIntron s.exonDb s.intronDb [] [] exs with e |
      ⟨edb, idb, names, existing⟩ <;> rw [hloop] at hok
  · cases hok
  have hLS : LoopSpec s.intronDb idb names existing :=
    addIntronsLoop_spec maxIntron s.intronDb exs s.exonDb s.intronDb [] []
      (edb, idb, names, existing) (LoopSpec_refl s.intronDb) hloop
  cases names with
  | nil =>
    obtain rfl := Except.ok.inj hok
    have hndk : nodupKeys idb := hLS.nodup hinv.idbNodup
    refine ⟨hndk, hinv.clsNodup, ?_, ?_, ?_, ?_, hinv.shape, hinv.clwf⟩
    · intro p hp
      have hl := mem_lookupA idb p.1 p.2 hndk hp
      rcases hLS.attrAll p.1 p.2 hl with ⟨o₀, h₀, hcl⟩ | ⟨_, h2, _⟩
      · obtain ⟨k, g, ho, hg, hn⟩ := hinv.attrValid (p.1, o₀) (lookupA_mem _ _ _ h₀)
        exact ⟨k, g, by rw [hcl]; exact ho, hg, hn⟩
      · exact absurd h2 (List.not_mem_nil _)
    · intro p hp q hq hqn
      have hl := mem_lookupA idb p.1 p.2 hndk hp
      rcases hLS.attrAll p.1 p.2 hl with ⟨o₀, h₀, hcl⟩ | ⟨_, h2, _⟩
      · rw [hcl]
        exact hinv.uniq (p.1, o₀) (lookupA_mem _ _ _ h₀) q hq hqn
      · exact absurd h2 (List.not_mem_nil _)
    · intro q hq n hn
      exact (hLS.keysIff n).2 (Or.inl (hinv.nodesInDb q hq n hn))
    · intro q hq
      exact Nat.lt_succ_of_lt (hinv.fresh q hq)
  | cons n₀ ns =>
    simp only at hok
    by_cases hex : existing = []
    · rw [if_pos hex] at hok
      subst hex
      obtain rfl := Except.ok.inj hok
      cases ns with
      | nil =>
        have hred : (if (n₀ :: ([] : List String)).length > 1 then
            NxDiGraph.empty.addPath (n₀ :: []) else NxDiGraph.empty.addNode n₀) =
            NxDiGraph.empty.addNode n₀ := rfl
        rw [hred]
        refine ClusterInv_create edb s cno idb [n₀] _ hLS hinv ?_ ?_
          (NxDiGraph.WF_addNode NxDiGraph.WF_empty)
        · intro x
          rw [NxDiGraph.mem_nodes_addNode]
          simp [NxDiGraph.empty]
        · refine Or.inl ⟨n₀, ?_, rfl⟩
          show insertU n₀ ([] : List String) = [n₀]
          simp [insertU]
      | cons n₁ rest =>
        rw [if_pos (by simp only [List.length_cons]; omega)] at hok ⊢
        refine ClusterInv_create edb s cno idb (n₀ :: n₁ :: rest) _ hLS hinv ?_
          (Or.inr (Covered_addPath2 rest NxDiGraph.empty n₀ n₁ Covered_empty))
          (NxDiGraph.WF_addPath (n₀ :: n₁ :: rest) NxDiGraph.empty
            NxDiGraph.WF_empty)
        · intro x
          rw [NxDiGraph.mem_nodes_addPath]
          simp [NxDiGraph.empty]
    · rw [if_neg hex] at hok
      rcases habs : absorbClusters s.clusters NxDiGraph.empty existing with e |
          ⟨cls₁, acc⟩ <;> rw [habs] at hok
      · simp at hok
      simp only at hok
      rcases hre : reassignNodes idb cno acc.nodes with e | idb₂ <;>
        rw [hre] at hok
      · simp at hok
      simp only [Except.ok.injEq] at hok
      subst hok
      cases ns with
      | nil =>
        have hred : (if (n₀ :: ([] : List String)).length > 1 then
            acc.addPath (n₀ :: []) else acc.addNode n₀) = acc.addNode n₀ := rfl
        rw [hred]
        exact ClusterInv_merge edb s cno idb idb₂ [n₀] existing cls₁ acc _
          hLS hinv habs hre (Or.inr ⟨n₀, rfl, rfl⟩)
      | cons n₁ rest =>
        rw [if_pos (by simp only [List.length_cons]; omega)]
        exact ClusterInv_merge edb s cno idb idb₂ (n₀ :: n₁ :: rest) existing
          cls₁ acc _ hLS hinv habs hre (Or.inl ⟨n₀, n₁, rest, rfl, rfl⟩)

theorem mainStep_preserves_inv (maxIntron : Int) (st : MainState)
    (al : List ExonObj) (st' : MainState)
    (hinv : ClusterInv st.gimme st.clusterNo)
    (hok : mainStep maxIntron st al = .ok st') :
    ClusterInv st'.gimme st'.clusterNo := by
  unfold mainStep at hok
  by_cases hlen : al.length > 1
  · rw [if_pos hlen] at hok
    rcases hadd : addIntrons maxIntron
        { st.gimme with exonDb := addExon st.gimme.exonDb al } al st.clusterNo
        with e | s' <;> rw [hadd] at hok
    · cases hok
    simp only [Except.ok.injEq] at hok
    subst hok
    refine addIntrons_preserves_inv maxIntron _ al st.clusterNo s' ?_ hadd
    exact ⟨hinv.idbNodup, hinv.clsNodup, hinv.attrValid, hinv.uniq,
      hinv.nodesInDb, hinv.fresh, hinv.shape, hinv.clwf⟩
  · rw [if_neg hlen] at hok
    cases al with
    | nil => cases hok
    | cons e tl =>
      cases tl with
      | nil =>
        simp only [Except.ok.injEq] at hok
        subst hok
        exact hinv
      | cons e2 tl2 => cases hok

theorem ClusterInv_empty : ClusterInv ({} : GimmeState) 0 := by
  refine ⟨List.nodup_nil, List.nodup_nil, ?_, ?_, ?_, ?_, ?_, ?_⟩ <;>
    intro p hp <;> exact absurd hp (List.not_mem_nil p)

theorem foldlM_mainStep_inv (maxIntron : Int) :
    ∀ (als : List (List ExonObj)) (st₀ st : MainState),
      ClusterInv st₀.gimme st₀.clusterNo →
      List.foldlM (mainStep maxIntron) st₀ als = .ok st →
      ClusterInv st.gimme st.clusterNo := by
  intro als
  induction als with
  | nil =>
    intro st₀ st h hok
    obtain rfl := Except.ok.inj hok
    exact h
  | cons a rest ih =>
    intro st₀ st h hok
    rw [List.foldlM_cons] at hok
    obtain ⟨st₁, h1, h2⟩ := bind_ok_inv hok
    exact ih st₁ st (mainStep_preserves_inv maxIntron st₀ a st₁ h h1) h2

theorem countP_unique_cluster :
    ∀ (cls : ClusterTable) (x : String) (k : Nat) (g : NxDiGraph String),
      nodupKeys cls → lookupA cls k = some g → x ∈ g.nodes →
      (∀ q ∈ cls, x ∈ q.2.nodes → q.1 = k) →
      cls.countP (fun q => decide (x ∈ q.2.nodes)) = 1 := by
  intro cls
  induction cls with
  | nil =>
    intro x k g _ hl _ _
    cases hl
  | cons q t ih =>
    rcases q with ⟨qk, qg⟩
    intro x k g hnd hl hx huniq
    rw [nodupKeys, List.map_cons, List.nodup_cons] at hnd
    by_cases hqx : x ∈ qg.nodes
    · have hqk : qk = k := huniq (qk, qg) (List.mem_cons_self _ _) hqx
      rw [List.countP_cons_of_pos _ _ (by simpa using hqx)]
      have hzero : t.countP (fun q => decide (x ∈ q.2.nodes)) = 0 := by
        rw [List.countP_eq_zero]
        intro q' hq' hq'x
        have hk' : q'.1 = k := huniq q' (List.mem_cons_of_mem _ hq')
          (by simpa using hq'x)
        refine hnd.1 ?_
        rw [hqk, ← hk']
        exact List.mem_map.2 ⟨q', hq', rfl⟩
      rw [hzero]
    · rw [List.countP_cons_of_neg _ _ (by simpa using hqx)]
      have hqk : qk ≠ k := by
        rintro rfl
        rw [lookupA, if_pos rfl] at hl
        obtain rfl := Option.some.inj hl
        exact hqx hx
      rw [lookupA, if_neg hqk] at hl
      exact ih x k g hnd.2 hl hx
        (fun q' hq' hx' => huniq q' (List.mem_cons_of_mem _ hq') hx')

/-- C3 (cluster invariant of `linkIntrons`): after the main loop has fed any
sequence of parsed alignments through `addExon`/`addIntrons` (every
`addIntrons` call the program makes happens inside this loop), every intron
registered in the intron table has a `cluster` attribute naming a cluster
present in the cluster table whose node set contains the intron, and the
intron appears in the node set of exactly one cluster of the table. -/
theorem linkIntrons_cluster_invariant (maxIntron : Int)
    (als : List (List ExonObj)) (st : MainState)
    (hok : processAlignments maxIntron als = .ok st) :
    ∀ p ∈ st.gimme.intronDb,
      (∃ k g, p.2.cluster = some k ∧ lookupA st.gimme.clusters k = some g ∧
        p.1 ∈ g.nodes) ∧
      st.gimme.clusters.countP (fun q => decide (p.1 ∈ q.2.nodes)) = 1 := by
  have hinv : ClusterInv st.gimme st.clusterNo :=
    foldlM_mainStep_inv maxIntron als {} st ClusterInv_empty hok
  intro p hp
  obtain ⟨k, g, ho, hg, hn⟩ := hinv.attrValid p hp
  refine ⟨⟨k, g, ho, hg, hn⟩, ?_⟩
  refine countP_unique_cluster st.gimme.clusters p.1 k g hinv.clsNodup hg hn ?_
  intro q hq hx
  have := hinv.uniq p hp q hq hx
  rw [ho] at this
  exact (Option.some.inj this).symm

theorem linkIntrons_cluster_invariant_witness :
    ∃ st, processAlignments 100000
        [[mkExonObj "chr1" 0 100, mkExonObj "chr1" 200 300]] = Except.ok st ∧
      ∀ p ∈ st.gimme.intronDb,
        (∃ k g, p.2.cluster = some k ∧ lookupA st.gimme.clusters k = some g ∧
          p.1 ∈ g.nodes) ∧
        st.gimme.clusters.countP (fun q => decide (p.1 ∈ q.2.nodes)) = 1 :=
  ⟨_, rfl, linkIntrons_cluster_invariant 100000
    [[mkExonObj "chr1" 0 100, mkExonObj "chr1" 200 300]] _ rfl⟩
